import Mathlib

/-! CloudKid Translate: locale merge, placeholder substitution, asset paths

A shallow embedding of the two shipped builds of the `cloudkid.Translate`
jQuery plugin

* `src/dist/cloudkid-translate.debug.js` (VERSION 1.0.5, namespace `V105`)
* `src/dist/cloudkid-translate.js`       (VERSION 1.0.2, namespace `V102`)

JavaScript strings are lists of characters (code units), plain objects are
insertion-ordered association lists keyed by strings, the four module
variables `_dict`, `_current`, `_locale`, `_fallbackLocale` form an explicit
state record, and a `throw` of a message string is the `error` case of
`Except`.  The DOM refresh at the end of the 1.0.5 `refresh`
(`$("[data-localize]")._t()`) belongs to the UI binding layer and is not part
of the model; it runs after `_current` has been assigned.
-/

namespace CloudKid

/-! ## JavaScript values used by the plugin -/

/-- A JavaScript string, as its list of characters. -/
abbrev Str := List Char

/-- A plain JavaScript object with values in `α`: own properties in insertion order. -/
abbrev Obj (α : Type) := List (Str × α)

/-- Property read `o[k]` (`none` stands for `undefined`); also `o.hasOwnProperty(k)`. -/
def Obj.get {α : Type} (o : Obj α) (k : Str) : Option α :=
  match o with
  | [] => none
  | (k0, v) :: rest => if k = k0 then some v else Obj.get rest k

/-- Property write `o[k] = v`: overwrite in place, or add a new last property. -/
def Obj.set {α : Type} (o : Obj α) (k : Str) (v : α) : Obj α :=
  match o with
  | [] => [(k, v)]
  | (k0, v0) :: rest => if k = k0 then (k0, v) :: rest else (k0, v0) :: Obj.set rest k v

/-- jQuery `$.extend(target, options)` (shallow):
`for (name in options) target[name] = options[name]`. -/
def extend {α : Type} (target options : Obj α) : Obj α :=
  (options.map Prod.fst).foldl
    (fun t name =>
      match Obj.get options name with
      | some copy => Obj.set t name copy
      | none => t)
    target

/-- A translation table: lookup key to template string. -/
abbrev Table := Obj Str

/-- A dictionary: locale code to translation table. -/
abbrev Dict := Obj Table

/-- The value of `_locale`: a single code (`typeof _locale == "string"`) or an array of codes. -/
inductive Locale where
  | single (code : Str)
  | many (codes : List Str)
  deriving DecidableEq, Repr

/-- The preference as a sequence: `typeof _locale == "string" ? [_locale] : _locale`. -/
def Locale.toSeq : Locale → List Str
  | Locale.single code => [code]
  | Locale.many codes => codes

/-- JavaScript truthiness of `_locale`: `null` and `""` are falsy, every array is truthy. -/
def localeTruthy : Option Locale → Bool
  | none => false
  | some (Locale.single code) => !code.isEmpty
  | some (Locale.many _) => true

/-- JavaScript truthiness of a nullable string such as `_fallbackLocale`. -/
def strTruthy : Option Str → Bool
  | none => false
  | some s => !s.isEmpty

/-- An argument passed after the template: a string, or an array of strings. -/
inductive Val where
  | str (s : Str)
  | arr (xs : List Str)
  deriving DecidableEq, Repr

/-- The text `undefined`, which string concatenation produces for a missing value. -/
def undefinedStr : Str := "undefined".toList

/-- JavaScript `ToString` of an argument (an array joins its elements with commas). -/
def Val.toStr : Val → Str
  | Val.str s => s
  | Val.arr xs => List.intercalate [','] xs

/-! ## `printf` (identical in both builds) -/

/-- The part `(\d+)\$s` of the pattern: the captured digits and the rest of the input. -/
def matchIndexed (t : Str) : Option (Str × Str) :=
  let ds := t.takeWhile Char.isDigit
  match t.dropWhile Char.isDigit with
  | d :: e :: r => if ds ≠ [] ∧ d = '$' ∧ e = 's' then some (ds, r) else none
  | _ => none

/-- The part `%(?:(\d+)\$)?s` of the pattern at the head of the input:
the capture `position` (`none` when the optional group did not take part) and the rest. -/
def matchToken (s : Str) : Option (Option Str × Str) :=
  match s with
  | [] => none
  | c :: t =>
    if c = '%' then
      match matchIndexed t with
      | some (ds, r) => some (some ds, r)
      | none =>
        match t with
        | e :: r => if e = 's' then some (none, r) else none
        | [] => none
    else none

/-- One match attempt of `/([^%]|^)%(?:(\d+)\$)?s/` starting at the head of `s`;
`atStart` says whether that position is index 0 of the subject.  Returns the
capture `p`, the capture `position` and the input after the match. -/
def matchAt (atStart : Bool) (s : Str) : Option (Str × Option Str × Str) :=
  let alt1 : Option (Str × Option Str × Str) :=
    match s with
    | c :: t =>
      if c ≠ '%' then
        match matchToken t with
        | some (position, r) => some ([c], position, r)
        | none => none
      else none
    | [] => none
  match alt1 with
  | some m => some m
  | none =>
    if atStart then
      match matchToken s with
      | some (position, r) => some ([], position, r)
      | none => none
    else none

/-- The function `parseInt` on a string of decimal digits. -/
def parseInt (ds : Str) : Nat :=
  ds.foldl (fun n c => 10 * n + (c.toNat - '0'.toNat)) 0

/-- The element read `args[parseInt(position) - 1]`, converted by concatenation. -/
def argAt (args : List Str) (position : Str) : Str :=
  match parseInt position with
  | 0 => undefinedStr
  | n + 1 => args.getD n undefinedStr

/-- The replacement callback `function(p0, p, position)`; `args.shift()` removes the
first element of the shared array, so the array is threaded through. -/
def replacer (p : Str) (position : Option Str) (args : List Str) : Str × List Str :=
  match position with
  | some ds => (p ++ argAt args ds, args)
  | none => (p ++ args.headD undefinedStr, args.tail)

/-- The loop of `str.replace(/([^%]|^)%(?:(\d+)\$)?s/g, callback)`: try a match at the
current position; on success emit the replacement and go on after the match, otherwise
copy one character and move on.  Every step consumes a character, so `fuel` equal to
the length of the input is never exhausted. -/
def replaceLoop : Nat → Bool → Str → List Str → Str
  | 0, _, s, _ => s
  | fuel + 1, atStart, s, args =>
    match matchAt atStart s with
    | some (p, position, rest) =>
      (replacer p position args).1 ++ replaceLoop fuel false rest (replacer p position args).2
    | none =>
      match s with
      | [] => []
      | c :: t => c :: replaceLoop fuel false t args

/-- The global replace run on the input `s` that is left at some position of the subject. -/
def scanFrom (atStart : Bool) (s : Str) (args : List Str) : Str :=
  replaceLoop s.length atStart s args

/-- First pass of `printf`: the global replace with the substitution callback. -/
def substitute (str : Str) (args : List Str) : Str :=
  scanFrom true str args

/-- Second pass of `printf`: `.replace(/%%s/g, "%s")`. -/
def unescape : Str → Str
  | [] => []
  | [c] => [c]
  | [c, d] => [c, d]
  | c :: d :: e :: r =>
    if c = '%' ∧ d = '%' ∧ e = 's' then '%' :: 's' :: unescape r
    else c :: unescape (d :: e :: r)

/-- The normalisation `args = $.isArray(args) ? args : _slice.call(arguments, 1)`,
for a non-empty list `rest` of arguments after the template. -/
def normArgs (rest : List Val) : List Str :=
  match rest with
  | Val.arr xs :: _ => xs
  | _ => rest.map Val.toStr

/-- The function `printf(str, args)` called with the arguments `rest` after `str`
(`arguments.length = 1 + rest.length`). -/
def printf (str : Str) (rest : List Val) : Str :=
  match rest with
  | [] => str
  | _ :: _ => unescape (substitute str (normArgs rest))

/-! ## File names -/

/-- The loop behind `file.lastIndexOf(c)`: `acc` is the last index seen so far. -/
def lastIndexOfFrom (c : Char) : Str → Nat → Int → Int
  | [], _, acc => acc
  | x :: t, i, acc => lastIndexOfFrom c t (i + 1) (if x = c then (i : Int) else acc)

/-- JavaScript `s.lastIndexOf(c)` for a one-character search string: `-1` when absent. -/
def lastIndexOf (s : Str) (c : Char) : Int :=
  lastIndexOfFrom c s 0 (-1)

/-- JavaScript `s.substring(start, stop)`: both bounds are clamped to `[0, s.length]`
and swapped when `start > stop`. -/
def substring (s : Str) (start stop : Int) : Str :=
  let a := min start.toNat s.length
  let b := min stop.toNat s.length
  (s.drop (min a b)).take (max a b - min a b)

/-- The candidate built in `translateFile`:
`file.substring(0, index) + separator + lang + file.substring(index, file.length)`
with `index = file.lastIndexOf(".")`. -/
def candidate (separator file lang : Str) : Str :=
  let index := lastIndexOf file '.'
  substring file 0 index ++ separator ++ lang ++ substring file index file.length

/-! ## Module state -/

/-- The four module variables; `none` is `null`. -/
structure State where
  _dict : Option Dict
  _current : Option Table
  _locale : Option Locale
  _fallbackLocale : Option Str
  deriving DecidableEq, Repr

/-- The state when the script has been loaded, and after `Translate.reset()`. -/
def State.initial : State :=
  { _dict := none, _current := none, _locale := none, _fallbackLocale := none }

/-- The message thrown when `_current` is `null`. -/
def notReadyMsg : Str :=
  "Must call Translate.load() before getting the translation".toList

/-- The message `"No translation string found matching '" + key + "'"`. -/
def notFoundMsg (key : Str) : Str :=
  "No translation string found matching ".toList ++ [Char.ofNat 39] ++ key ++ [Char.ofNat 39]

/-- The loop `for (i = locale.length - 1; i >= 0; i--) $.extend(_current, _dict[lang] || {})`
started on `_current = {}`: the last code is merged first, the first code last. -/
def mergeLocales (dict : Dict) (locales : List Str) : Table :=
  locales.foldr (fun lang current => extend current ((Obj.get dict lang).getD [])) []

/-! ## Version 1.0.5 (`cloudkid-translate.debug.js`) -/

namespace V105

/-- The function `getLocales`, reached only after `_locale` has been tested truthy:
a copy of the preference as an array, with `_fallbackLocale` pushed when it is
truthy and `locales.indexOf(_fallbackLocale) == -1`. -/
def getLocales (locale : Locale) (fallbackLocale : Option Str) : List Str :=
  let locales : List Str := locale.toSeq
  match fallbackLocale with
  | some fb => if strTruthy (some fb) ∧ fb ∉ locales then locales ++ [fb] else locales
  | none => locales

/-- The function `refresh`: nothing happens unless `_locale && _dict`. -/
def refresh (st : State) : State :=
  match st._locale, st._dict with
  | some locale, some dict =>
    if localeTruthy (some locale) then
      { st with _current := some (mergeLocales dict (getLocales locale st._fallbackLocale)) }
    else st
  | _, _ => st

/-- The call `Translate.load(dict)` with an in-memory dictionary and no locale code:
`_dict = _dict || {}; $.extend(_dict, dict); refresh()`. -/
def load (st : State) (dict : Dict) : State :=
  refresh { st with _dict := some (extend (st._dict.getD []) dict) }

/-- The function `Translate.reset`. -/
def reset (_st : State) : State :=
  State.initial

/-- The setter of `Translate.locale`. -/
def setLocale (st : State) (locale : Option Locale) : State :=
  refresh { st with _locale := locale }

/-- The setter of `Translate.fallbackLocale`. -/
def setFallbackLocale (st : State) (locale : Option Str) : State :=
  refresh { st with _fallbackLocale := locale }

/-- The function `translateString(key, ...rest)`. -/
def translateString (st : State) (key : Str) (rest : List Val) : Except Str Str :=
  match st._current with
  | none => Except.error notReadyMsg
  | some current =>
    match Obj.get current key with
    | none => Except.error (notFoundMsg key)
    | some template => Except.ok (printf template rest)

/-- The probing loop of `translateFile`: the first `url` whose HEAD request does not
answer 404 (`probe url = true`) is returned, and `file` when the codes run out. -/
def probeLoop (probe : Str → Bool) (fileSeparator file : Str) : List Str → Str
  | [] => file
  | lang :: more =>
    if probe (candidate fileSeparator file lang) then candidate fileSeparator file lang
    else probeLoop probe fileSeparator file more

/-- The function `translateFile(file)`; `fileSeparator` is the property
`Translate.fileSeparator` and `probe url` is `404 != http.status` for the synchronous
HEAD request to `url`. -/
def translateFile (st : State) (fileSeparator : Str) (probe : Str → Bool) (file : Str) : Str :=
  match st._locale with
  | some locale =>
    if localeTruthy (some locale) then
      probeLoop probe fileSeparator file (getLocales locale st._fallbackLocale)
    else file
  | none => file

end V105

/-! ## Version 1.0.2 (`cloudkid-translate.js`) -/

namespace V102

/-- The function `refresh`.  `locale` aliases the stored array when `_locale` is an
array, so `locale.push(_fallbackLocale)` also grows `_locale`. -/
def refresh (st : State) : State :=
  match st._locale, st._dict with
  | some stored, some dict =>
    if localeTruthy (some stored) then
      let locale : List Str := stored.toSeq
      let locale : List Str :=
        match st._fallbackLocale with
        | some fb => if strTruthy (some fb) then locale ++ [fb] else locale
        | none => locale
      { st with
        _locale := (match stored with
          | Locale.single code => some (Locale.single code)
          | Locale.many _ => some (Locale.many locale))
        _current := some (mergeLocales dict locale) }
    else st
  | _, _ => st

/-- The call `Translate.load(dict)` with an in-memory dictionary:
`if (_dict !== null) $.extend(_dict, dict) else _dict = dict; refresh()`. -/
def load (st : State) (dict : Dict) : State :=
  match st._dict with
  | some stored => refresh { st with _dict := some (extend stored dict) }
  | none => refresh { st with _dict := some dict }

/-- The setter of `Translate.locale`. -/
def setLocale (st : State) (locale : Option Locale) : State :=
  refresh { st with _locale := locale }

/-- The setter of `Translate.fallbackLocale`. -/
def setFallbackLocale (st : State) (locale : Option Str) : State :=
  refresh { st with _fallbackLocale := locale }

/-- The function `translateString(key, ...rest)`: `str = _current[key]` is assigned
but the call is `printf.apply(null, args)` with `args[0] = key`. -/
def translateString (st : State) (key : Str) (rest : List Val) : Except Str Str :=
  match st._current with
  | none => Except.error notReadyMsg
  | some current =>
    match Obj.get current key with
    | some _str => Except.ok (printf key rest)
    | none => Except.error (notFoundMsg key)

/-- The function `translateFile(file)`: only the first locale is used, the separator
is the constant `"_"`, and nothing is probed. -/
def translateFile (st : State) (file : Str) : Str :=
  match st._locale with
  | some locale =>
    if localeTruthy (some locale) then
      match locale with
      | Locale.single code => candidate ['_'] file code
      | Locale.many codes => candidate ['_'] file (codes.headD undefinedStr)
    else file
  | none => file

end V102

/-! ## Further configuration calls -/

/-- The function `Translate.reset` of the 1.0.2 build. -/
def V102.reset (_st : State) : State :=
  State.initial

/-- The call `Translate.load(table, lang)` of the 1.0.5 build with an in-memory table
and a string `lang`: `_dict = _dict || {}; _dict[lang] = table; _locale = lang;
refresh()`.  An empty `lang` is falsy and sends the call down the dictionary branch
with a table in the place of a dictionary; the typed model has no state for that, so
the result is `none`. -/
def V105.loadTable (st : State) (table : Table) (lang : Str) : Option State :=
  if strTruthy (some lang) then
    some (V105.refresh { st with
      _dict := some (Obj.set (st._dict.getD []) lang table)
      _locale := some (Locale.single lang) })
  else none

/-- The function `Translate.autoDetect(useCountryLocale)` of the 1.0.5 build;
`language` is `window.navigator.userLanguage || window.navigator.language` and `none`
is an omitted argument, which counts as `true`.  The return value is the new `_locale`. -/
def V105.autoDetect (st : State) (language : Str) (useCountryLocale : Option Bool) : State :=
  let langOnly : Str := language.take 2
  V105.refresh { st with
    _locale := some (if useCountryLocale.getD true then Locale.many [language, langOnly]
      else Locale.single langOnly) }

/-- The function `Translate.autoDetect()` of the 1.0.2 build. -/
def V102.autoDetect (st : State) (language : Str) : State :=
  V102.refresh { st with _locale := some (Locale.many [language, language.take 2]) }

/-- A configuration call of the 1.0.5 build. -/
inductive V105.Op where
  | load (dict : Dict)
  | loadTable (table : Table) (lang : Str)
  | setLocale (locale : Option Locale)
  | setFallbackLocale (locale : Option Str)
  | autoDetect (language : Str) (useCountryLocale : Option Bool)
  deriving DecidableEq, Repr

/-- The state after one configuration call. -/
def V105.Op.apply (st : State) : V105.Op → Option State
  | V105.Op.load dict => some (V105.load st dict)
  | V105.Op.loadTable table lang => V105.loadTable st table lang
  | V105.Op.setLocale locale => some (V105.setLocale st locale)
  | V105.Op.setFallbackLocale locale => some (V105.setFallbackLocale st locale)
  | V105.Op.autoDetect language useCountryLocale =>
    some (V105.autoDetect st language useCountryLocale)

/-- The state after a sequence of configuration calls, first call first. -/
def V105.run (st : State) : List V105.Op → Option State
  | [] => some st
  | op :: more =>
    match V105.Op.apply st op with
    | some next => V105.run next more
    | none => none

/-- The call is an in-memory load (with or without a locale code). -/
def V105.Op.isLoad : V105.Op → Bool
  | V105.Op.load _ => true
  | V105.Op.loadTable _ _ => true
  | _ => false

/-- The value the call assigns to `_locale`, when it assigns one. -/
def V105.Op.assigned : V105.Op → Option (Option Locale)
  | V105.Op.load _ => none
  | V105.Op.loadTable _ lang => some (some (Locale.single lang))
  | V105.Op.setLocale locale => some locale
  | V105.Op.setFallbackLocale _ => none
  | V105.Op.autoDetect language useCountryLocale =>
    some (some (if useCountryLocale.getD true then Locale.many [language, language.take 2]
      else Locale.single (language.take 2)))

/-- The call assigns a truthy value to `_locale`: a non-empty string or any array. -/
def V105.Op.setsTruthyLocale (op : V105.Op) : Bool :=
  match V105.Op.assigned op with
  | some value => localeTruthy value
  | none => false

/-- The call assigns a non-empty preference to `_locale`: a non-empty string or an
array with at least one code. -/
def V105.Op.setsNonEmptyLocale (op : V105.Op) : Bool :=
  match V105.Op.assigned op with
  | some (some (Locale.single code)) => !code.isEmpty
  | some (some (Locale.many codes)) => !codes.isEmpty
  | _ => false

/-! ## Templates as token lists

The claims about `printf` quantify over templates of a given shape.  A template is
described by the list of its tokens; `templateText` is the string handed to `printf`. -/

/-- A token of a template. -/
inductive Piece where
  | lit (c : Char)
  | ph
  | idx (ds : Str)
  | esc
  deriving DecidableEq, Repr

/-- The characters of a token: a literal character, `%s`, `%` digits `$s`, or `%%s`. -/
def Piece.text : Piece → Str
  | Piece.lit c => [c]
  | Piece.ph => ['%', 's']
  | Piece.idx ds => '%' :: (ds ++ ['$', 's'])
  | Piece.esc => ['%', '%', 's']

/-- The template string spelled by a token list. -/
def templateText : List Piece → Str
  | [] => []
  | p :: ps => p.text ++ templateText ps

/-- Shape condition on a token list: literal characters are not `%`, an index is a
non-empty string of digits, and a placeholder (`%s` or indexed) stands either at the
very start (`canStart`) or directly after a literal character or an escaped token,
never directly after another placeholder. -/
def wellFormed : Bool → List Piece → Bool
  | _, [] => true
  | _, Piece.lit c :: ps => decide (c ≠ '%') && wellFormed true ps
  | canStart, Piece.ph :: ps => canStart && wellFormed false ps
  | canStart, Piece.idx ds :: ps =>
    canStart && decide (ds ≠ []) && ds.all Char.isDigit && wellFormed false ps
  | _, Piece.esc :: ps => wellFormed true ps

/-- The token is not an indexed placeholder. -/
def Piece.notIdx : Piece → Bool
  | Piece.idx _ => false
  | _ => true

/-- The token is not an unindexed placeholder. -/
def Piece.notPh : Piece → Bool
  | Piece.ph => false
  | _ => true

/-- The text the claims describe for a template: literal characters are kept, each
`%s` takes the next element of `rest`, each indexed placeholder takes the element of
`all` at its 1-based index, and each `%%s` becomes `%s`.  A missing element reads
`undefined`. -/
def fill : List Piece → List Str → List Str → Str
  | [], _, _ => []
  | Piece.lit c :: ps, all, rest => c :: fill ps all rest
  | Piece.ph :: ps, all, rest => rest.headD undefinedStr ++ fill ps all rest.tail
  | Piece.idx ds :: ps, all, rest => argAt all ds ++ fill ps all rest
  | Piece.esc :: ps, all, rest => '%' :: 's' :: fill ps all rest

/-- The output of the first pass in terms of tokens: the array left after the shifts
is the one an indexed placeholder reads, and `%%s` is still in place. -/
def firstPass : List Piece → List Str → Str
  | [], _ => []
  | Piece.lit c :: ps, args => c :: firstPass ps args
  | Piece.ph :: ps, args => args.headD undefinedStr ++ firstPass ps args.tail
  | Piece.idx ds :: ps, args => argAt args ds ++ firstPass ps args
  | Piece.esc :: ps, args => '%' :: '%' :: 's' :: firstPass ps args

/-- The tokens of `"%s" + s1 + "%s" + s2 + ...` for the pairs `(a1, s1), (a2, s2), ...`
of an argument and the literal segment after its placeholder. -/
def segmentPieces : List (Str × Str) → List Piece
  | [] => []
  | (_, s) :: more => Piece.ph :: (s.map Piece.lit ++ segmentPieces more)

/-- The template `"%s" + s1 + "%s" + s2 + ...` for the pairs `(a1, s1), (a2, s2), ...`. -/
def unindexedTemplate : List (Str × Str) → Str
  | [] => []
  | (_, s) :: more => '%' :: 's' :: (s ++ unindexedTemplate more)

/-- The text `a1 + s1 + a2 + s2 + ...` for the pairs `(a1, s1), (a2, s2), ...`. -/
def unindexedResult : List (Str × Str) → Str
  | [] => []
  | (a, s) :: more => a ++ (s ++ unindexedResult more)

/-! ## Sample data -/

/-- The dictionary `{en: {a: "A"}, fr: {a: "F", b: "B"}}`. -/
def sampleDict : Dict :=
  [("en".toList, [("a".toList, "A".toList)]),
   ("fr".toList, [("a".toList, "F".toList), ("b".toList, "B".toList)])]

/-- The dictionary is loaded and the preference is `["fr", "en"]`; no rebuild has run. -/
def sampleState : State :=
  { _dict := some sampleDict, _current := none,
    _locale := some (Locale.many ["fr".toList, "en".toList]), _fallbackLocale := none }

/-- A state whose effective table is `{a: "A", g: "Hi %s"}`. -/
def readyState : State :=
  { _dict := some sampleDict, _current := some [("a".toList, "A".toList), ("g".toList, "Hi %s".toList)],
    _locale := some (Locale.single "en".toList), _fallbackLocale := none }

/-- The dictionary `{en: {a: "A"}}`. -/
def dictFirst : Dict := [("en".toList, [("a".toList, "A".toList)])]

/-- The dictionary `{en: {b: "B"}}`. -/
def dictSecond : Dict := [("en".toList, [("b".toList, "B".toList)])]

/-- Nothing is loaded, the preference is `"en"` and no fallback is set. -/
def englishState : State :=
  { _dict := none, _current := none, _locale := some (Locale.single "en".toList),
    _fallbackLocale := none }

/-- A probe that answers 404 for `img/logo_fr.png` only. -/
def sampleProbe (url : Str) : Bool :=
  decide (url ≠ "img/logo_fr.png".toList)

/-- The dictionary `{en: {a: "A"}, fr: {a: "F", b: "B"}}` is loaded, the preference is
the array `["en"]` and the fallback is set to `"fr"` and then to `"de"` (1.0.2 build). -/
def fallbackTwice : State :=
  V102.setFallbackLocale
    (V102.setFallbackLocale
      (V102.setLocale (V102.load State.initial sampleDict) (some (Locale.many ["en".toList])))
      (some "fr".toList))
    (some "de".toList)

/-- The dictionary `{en: {a: "A"}, fr: {a: "F", b: "B"}}` with preference
`["fr", "en"]` and the fallback `"fr"`, which already occurs in the preference. -/
def fallbackInside : State :=
  { _dict := some sampleDict, _current := none,
    _locale := some (Locale.many ["fr".toList, "en".toList]),
    _fallbackLocale := some "fr".toList }

/-! ## Objects and the merge loop -/

theorem Obj.get_set {α : Type} (o : Obj α) (k k1 : Str) (v : α) :
    Obj.get (Obj.set o k v) k1 = if k1 = k then some v else Obj.get o k1 := by
  induction o with
  | nil => simp [Obj.set, Obj.get]
  | cons hd tl ih =>
    obtain ⟨k0, v0⟩ := hd
    by_cases h : k = k0
    · subst h
      by_cases h1 : k1 = k <;> simp [Obj.set, Obj.get, h1]
    · by_cases h1 : k1 = k0
      · subst h1
        have h2 : ¬ k1 = k := fun e => h e.symm
        simp [Obj.set, Obj.get, h, h2]
      · simp [Obj.set, Obj.get, h, h1, ih]

theorem Obj.get_eq_none_of_not_mem {α : Type} (o : Obj α) (k : Str)
    (h : k ∉ o.map Prod.fst) : Obj.get o k = none := by
  induction o with
  | nil => rfl
  | cons hd tl ih =>
    obtain ⟨k0, v0⟩ := hd
    simp only [List.map_cons, List.mem_cons, not_or] at h
    simp [Obj.get, h.1, ih h.2]

theorem Obj.get_isSome_of_mem {α : Type} (o : Obj α) (k : Str)
    (h : k ∈ o.map Prod.fst) : ∃ v, Obj.get o k = some v := by
  induction o with
  | nil => simp at h
  | cons hd tl ih =>
    obtain ⟨k0, v0⟩ := hd
    by_cases h0 : k = k0
    · exact ⟨v0, by simp [Obj.get, h0]⟩
    · simp only [List.map_cons, List.mem_cons, h0, false_or] at h
      obtain ⟨v, hv⟩ := ih h
      exact ⟨v, by simp [Obj.get, h0, hv]⟩

/-- Reading a property after the copying loop has run over the names `names`. -/
theorem get_extend_loop {α : Type} (options : Obj α) (names : List Str) (target : Obj α)
    (k : Str) (hn : ∀ n ∈ names, ∃ v, Obj.get options n = some v) :
    Obj.get (names.foldl (fun t name =>
        match Obj.get options name with
        | some copy => Obj.set t name copy
        | none => t) target) k
      = if k ∈ names then Obj.get options k else Obj.get target k := by
  induction names generalizing target with
  | nil => simp
  | cons n rest ih =>
    obtain ⟨v, hv⟩ := hn n (List.mem_cons_self n rest)
    have hrest : ∀ m ∈ rest, ∃ v, Obj.get options m = some v :=
      fun m hm => hn m (List.mem_cons_of_mem n hm)
    simp only [List.foldl_cons, hv]
    rw [ih _ hrest]
    by_cases hk : k ∈ rest
    · simp [hk]
    · by_cases hkn : k = n
      · subst hkn
        simp [hk, Obj.get_set, hv]
      · simp [hk, hkn, Obj.get_set]

/-- After `$.extend(target, options)` a property comes from `options` when it is
there, and from `target` otherwise. -/
theorem get_extend {α : Type} (target options : Obj α) (k : Str) :
    Obj.get (extend target options) k
      = match Obj.get options k with
        | some v => some v
        | none => Obj.get target k := by
  unfold extend
  rw [get_extend_loop options (options.map Prod.fst) target k
    (fun n hn => Obj.get_isSome_of_mem options n hn)]
  by_cases hk : k ∈ options.map Prod.fst
  · obtain ⟨v, hv⟩ := Obj.get_isSome_of_mem options k hk
    simp [hk, hv]
  · simp [hk, Obj.get_eq_none_of_not_mem options k hk]

/-- The merged table answers a key from the first code of the list whose table has it. -/
theorem get_mergeLocales (dict : Dict) (locales : List Str) (k : Str) :
    Obj.get (mergeLocales dict locales) k
      = locales.findSome? (fun c => Obj.get ((Obj.get dict c).getD []) k) := by
  induction locales with
  | nil => rfl
  | cons c rest ih =>
    have hstep : mergeLocales dict (c :: rest)
        = extend (mergeLocales dict rest) ((Obj.get dict c).getD []) := rfl
    rw [hstep, get_extend, List.findSome?_cons]
    cases h : Obj.get ((Obj.get dict c).getD []) k with
    | some v => rfl
    | none => simpa using ih

theorem findSome_first {α β : Type} (f : α → Option β) (pre : List α) (c : α)
    (post : List α) (v : β) (hpre : ∀ x ∈ pre, f x = none) (hc : f c = some v) :
    (pre ++ c :: post).findSome? f = some v := by
  induction pre with
  | nil => simp [List.findSome?_cons, hc]
  | cons x rest ih =>
    have hx : f x = none := hpre x (List.mem_cons_self x rest)
    have hrest : ∀ y ∈ rest, f y = none := fun y hy => hpre y (List.mem_cons_of_mem x hy)
    simp [List.findSome?_cons, hx, ih hrest]

theorem findSome_none_iff {α β : Type} (f : α → Option β) (l : List α) :
    l.findSome? f = none ↔ ∀ x ∈ l, f x = none := by
  induction l with
  | nil => simp
  | cons x rest ih =>
    cases hx : f x with
    | none => simp [List.findSome?_cons, hx, ih]
    | some v => simp [List.findSome?_cons, hx]

/-- A code contributes nothing for `k` exactly when it has no table in the dictionary
or its table lacks `k`. -/
theorem tableOf_get_none_iff (dict : Dict) (c k : Str) :
    Obj.get ((Obj.get dict c).getD []) k = none
      ↔ ∀ tbl, Obj.get dict c = some tbl → Obj.get tbl k = none := by
  cases h : Obj.get dict c with
  | none => simp [Obj.get]
  | some tbl => simp

/-- C1. Merge precedence of the 1.0.5 rebuild (`refresh` with `getLocales`). When the
dictionary `D` is set and the preference `P` is truthy, the priority sequence is `P` as a
sequence followed by the fallback when the fallback is a non-empty string that does not
occur in it; `refresh` stores an effective table `t`; `t` maps every key `k` to the value
that the first code of the sequence whose table in `D` contains `k` gives it; and `k` is
absent from `t` exactly when no code of the sequence has a table in `D` containing `k`
(codes without a table in `D` contribute nothing). -/
theorem V105.merge_precedence (st : State) (D : Dict) (P : Locale)
    (hD : st._dict = some D) (hP : st._locale = some P)
    (hT : localeTruthy (some P) = true) :
    V105.getLocales P st._fallbackLocale
        = P.toSeq ++ (match st._fallbackLocale with
            | some fb => if fb ≠ [] ∧ fb ∉ P.toSeq then [fb] else []
            | none => [])
      ∧ ∃ t, (V105.refresh st)._current = some t
        ∧ (∀ k pre c post tbl v,
            V105.getLocales P st._fallbackLocale = pre ++ c :: post →
            (∀ x ∈ pre, ∀ tx, Obj.get D x = some tx → Obj.get tx k = none) →
            Obj.get D c = some tbl → Obj.get tbl k = some v →
            Obj.get t k = some v)
        ∧ (∀ k, Obj.get t k = none
            ↔ ∀ c ∈ V105.getLocales P st._fallbackLocale,
                ∀ tbl, Obj.get D c = some tbl → Obj.get tbl k = none) := by
  refine ⟨?_, mergeLocales D (V105.getLocales P st._fallbackLocale), ?_, ?_, ?_⟩
  · cases hf : st._fallbackLocale with
    | none => simp [V105.getLocales]
    | some fb =>
      by_cases h : fb ≠ [] ∧ fb ∉ P.toSeq
      · have h1 : (strTruthy (some fb) = true ∧ fb ∉ P.toSeq) := by
          refine ⟨?_, h.2⟩
          simpa [strTruthy] using h.1
        simp only [V105.getLocales]
        rw [if_pos h, if_pos h1]
      · have h1 : ¬ (strTruthy (some fb) = true ∧ fb ∉ P.toSeq) := by
          intro hc
          apply h
          refine ⟨?_, hc.2⟩
          simpa [strTruthy] using hc.1
        simp only [V105.getLocales]
        rw [if_neg h, if_neg h1]
        simp
  · simp [V105.refresh, hD, hP, hT]
  · intro k pre c post tbl v hseq hpre hc hv
    rw [get_mergeLocales, hseq]
    apply findSome_first
    · intro x hx
      exact (tableOf_get_none_iff D x k).2 (hpre x hx)
    · simp [hc, hv]
  · intro k
    rw [get_mergeLocales, findSome_none_iff]
    constructor
    · intro h c hc
      exact (tableOf_get_none_iff D c k).1 (h c hc)
    · intro h c hc
      exact (tableOf_get_none_iff D c k).2 (h c hc)

/-- Witness for C1 on `{en: {a: "A"}, fr: {a: "F", b: "B"}}` with preference
`["fr", "en"]`: `a` comes from `fr`, `b` comes from `fr`, and `z` is absent. -/
theorem V105.merge_precedence_witness :
    sampleState._dict = some sampleDict
      ∧ sampleState._locale = some (Locale.many ["fr".toList, "en".toList])
      ∧ localeTruthy (some (Locale.many ["fr".toList, "en".toList])) = true
      ∧ ∃ t, (V105.refresh sampleState)._current = some t
        ∧ Obj.get t "a".toList = some "F".toList
        ∧ Obj.get t "b".toList = some "B".toList
        ∧ Obj.get t "z".toList = none := by
  refine ⟨rfl, rfl, rfl, ?_⟩
  obtain ⟨_, t, ht, hfirst, hnone⟩ :=
    V105.merge_precedence sampleState sampleDict (Locale.many ["fr".toList, "en".toList])
      rfl rfl rfl
  refine ⟨t, ht, ?_, ?_, ?_⟩
  · exact hfirst "a".toList [] "fr".toList ["en".toList]
      [("a".toList, "F".toList), ("b".toList, "B".toList)] "F".toList
      (by decide) (by simp) (by decide) (by decide)
  · exact hfirst "b".toList [] "fr".toList ["en".toList]
      [("a".toList, "F".toList), ("b".toList, "B".toList)] "B".toList
      (by decide) (by simp) (by decide) (by decide)
  · rw [hnone]
    intro c hc tbl htbl
    have hc2 : c = "fr".toList ∨ c = "en".toList := by
      have : c ∈ ["fr".toList, "en".toList] := hc
      simpa using this
    rcases hc2 with h | h
    · subst h
      have : tbl = [("a".toList, "F".toList), ("b".toList, "B".toList)] := by
        have h2 : Obj.get sampleDict "fr".toList
            = some [("a".toList, "F".toList), ("b".toList, "B".toList)] := by decide
        rw [h2] at htbl
        exact (Option.some.inj htbl).symm
      subst this
      decide
    · subst h
      have : tbl = [("a".toList, "A".toList)] := by
        have h2 : Obj.get sampleDict "en".toList = some [("a".toList, "A".toList)] := by decide
        rw [h2] at htbl
        exact (Option.some.inj htbl).symm
      subst this
      decide

/-! ## `translateString` -/

theorem notReadyMsg_ne_notFoundMsg (k : Str) : notReadyMsg ≠ notFoundMsg k := by
  intro h
  have h1 : notReadyMsg.head? = some 'M' := by decide
  have h2 : (notFoundMsg k).head? = some 'N' := rfl
  rw [h, h2] at h1
  exact absurd h1 (by decide)

/-- C2. Outcome of the 1.0.5 `translateString`, for every state, key and argument list:
it throws the not-ready message exactly when `_current` is `null`; when an effective
table exists it throws the key-not-found message, which contains the key, exactly when
the key is not a property of the table, and it then returns nothing (no silent fallback
to the key); and for a key of the table it returns `printf` of the stored template and
the given arguments. -/
theorem V105.translateString_outcome (st : State) (k : Str) (rest : List Val) :
    (V105.translateString st k rest = Except.error notReadyMsg ↔ st._current = none)
      ∧ (∀ t, st._current = some t →
          (V105.translateString st k rest = Except.error (notFoundMsg k)
            ↔ Obj.get t k = none))
      ∧ k <:+: notFoundMsg k
      ∧ (∀ t, st._current = some t → Obj.get t k = none →
          ∀ r, V105.translateString st k rest ≠ Except.ok r)
      ∧ (∀ t template, st._current = some t → Obj.get t k = some template →
          V105.translateString st k rest = Except.ok (printf template rest)) := by
  refine ⟨?_, ?_, ?_, ?_, ?_⟩
  · cases hc : st._current with
    | none => simp [V105.translateString, hc]
    | some t =>
      cases hk : Obj.get t k with
      | none =>
        simp only [V105.translateString, hc, hk]
        constructor
        · intro h
          injection h with h
          exact absurd h.symm (notReadyMsg_ne_notFoundMsg k)
        · intro h
          exact absurd h (by simp)
      | some template => simp [V105.translateString, hc, hk]
  · intro t hc
    cases hk : Obj.get t k with
    | none => simp [V105.translateString, hc, hk]
    | some template => simp [V105.translateString, hc, hk]
  · exact ⟨"No translation string found matching ".toList ++ [Char.ofNat 39],
      [Char.ofNat 39], rfl⟩
  · intro t hc hk r
    simp [V105.translateString, hc, hk]
  · intro t template hc hk
    simp [V105.translateString, hc, hk]

/-- Witness for C2 on the effective table `{a: "A", g: "Hi %s"}`: `z` is not a key and
the call fails with the key-not-found message; `g` is a key and the call returns the
substituted template. -/
theorem V105.translateString_outcome_witness :
    V105.translateString readyState "z".toList [] = Except.error (notFoundMsg "z".toList)
      ∧ V105.translateString readyState "g".toList [Val.str "Bob".toList]
          = Except.ok "Hi Bob".toList := by
  refine ⟨?_, ?_⟩
  · exact ((V105.translateString_outcome readyState "z".toList []).2.1 _ rfl).2 (by decide)
  · have h := (V105.translateString_outcome readyState "g".toList
      [Val.str "Bob".toList]).2.2.2.2 _ "Hi %s".toList rfl (by decide)
    rw [h]
    exact congrArg Except.ok (by decide)

/-! ## The pattern `/([^%]|^)%(?:(\d+)\$)?s/` -/

theorem matchIndexed_length (t ds r : Str) (h : matchIndexed t = some (ds, r)) :
    r.length + 2 ≤ t.length := by
  unfold matchIndexed at h
  have hsuf : (t.dropWhile Char.isDigit).length ≤ t.length :=
    (List.dropWhile_suffix Char.isDigit).length_le
  cases hd : t.dropWhile Char.isDigit with
  | nil => simp [hd] at h
  | cons d l1 =>
    cases l1 with
    | nil => simp [hd] at h
    | cons e r1 =>
      simp only [hd] at h
      split at h
      · injection h with h
        injection h with _ h2
        subst h2
        rw [hd] at hsuf
        simpa using hsuf
      · simp at h

theorem matchToken_length (s r : Str) (position : Option Str)
    (h : matchToken s = some (position, r)) : r.length < s.length := by
  cases s with
  | nil => simp [matchToken] at h
  | cons c t =>
    by_cases hc : c = '%'
    · simp only [matchToken, hc, if_true] at h
      cases hm : matchIndexed t with
      | some m =>
        obtain ⟨ds, r1⟩ := m
        rw [hm] at h
        injection h with h
        injection h with _ h2
        subst h2
        have := matchIndexed_length t ds r1 hm
        simp only [List.length_cons]
        omega
      | none =>
        rw [hm] at h
        cases t with
        | nil => simp at h
        | cons e r1 =>
          by_cases he : e = 's'
          · simp only [he, if_true] at h
            injection h with h
            injection h with _ h2
            subst h2
            simp only [List.length_cons]
            omega
          · simp [he] at h
    · simp [matchToken, hc] at h

theorem matchToken_of_ne (c : Char) (t : Str) (hc : c ≠ '%') : matchToken (c :: t) = none := by
  simp [matchToken, hc]

theorem matchAt_lit_some (b : Bool) (c : Char) (t r : Str) (position : Option Str)
    (hc : c ≠ '%') (h : matchToken t = some (position, r)) :
    matchAt b (c :: t) = some ([c], position, r) := by
  simp [matchAt, hc, h]

theorem matchAt_lit_none (b : Bool) (c : Char) (t : Str)
    (hc : c ≠ '%') (h : matchToken t = none) : matchAt b (c :: t) = none := by
  cases b <;> simp [matchAt, hc, h, matchToken_of_ne c t hc]

theorem matchAt_percent_false (t : Str) : matchAt false ('%' :: t) = none := by
  simp [matchAt]

theorem matchAt_percent_true_some (t r : Str) (position : Option Str)
    (h : matchToken ('%' :: t) = some (position, r)) :
    matchAt true ('%' :: t) = some ([], position, r) := by
  simp [matchAt, h]

theorem matchAt_percent_none (b : Bool) (t : Str) (h : matchToken ('%' :: t) = none) :
    matchAt b ('%' :: t) = none := by
  cases b <;> simp [matchAt, h]

theorem matchAt_length (b : Bool) (s p rest : Str) (position : Option Str)
    (h : matchAt b s = some (p, position, rest)) : rest.length < s.length := by
  cases s with
  | nil =>
    cases b <;> simp [matchAt, matchToken] at h
  | cons c t =>
    by_cases hc : c = '%'
    · subst hc
      cases b with
      | false => simp [matchAt] at h
      | true =>
        cases hm : matchToken ('%' :: t) with
        | none => rw [matchAt_percent_none true t hm] at h; simp at h
        | some m =>
          obtain ⟨pos1, r1⟩ := m
          rw [matchAt_percent_true_some t r1 pos1 hm] at h
          injection h with h
          injection h with _ h
          injection h with _ h
          subst h
          exact matchToken_length _ _ _ hm
    · cases hm : matchToken t with
      | none => rw [matchAt_lit_none b c t hc hm] at h; simp at h
      | some m =>
        obtain ⟨pos1, r1⟩ := m
        rw [matchAt_lit_some b c t r1 pos1 hc hm] at h
        injection h with h
        injection h with _ h
        injection h with _ h
        subst h
        have := matchToken_length _ _ _ hm
        simp only [List.length_cons]
        omega

/-! ## The replace loop never runs out of fuel -/

theorem replaceLoop_nil (fuel : Nat) (b : Bool) (args : List Str) :
    replaceLoop fuel b [] args = [] := by
  cases fuel with
  | zero => rfl
  | succ n => cases b <;> simp [replaceLoop, matchAt, matchToken]

theorem replaceLoop_fuel (fuel1 : Nat) :
    ∀ (fuel2 : Nat) (b : Bool) (s : Str) (args : List Str),
      s.length ≤ fuel1 → s.length ≤ fuel2 →
      replaceLoop fuel1 b s args = replaceLoop fuel2 b s args := by
  induction fuel1 with
  | zero =>
    intro fuel2 b s args h1 _
    have hs : s = [] := List.length_eq_zero.mp (Nat.le_zero.mp h1)
    subst hs
    rw [replaceLoop_nil, replaceLoop_nil]
  | succ n ih =>
    intro fuel2 b s args h1 h2
    cases fuel2 with
    | zero =>
      have hs : s = [] := List.length_eq_zero.mp (Nat.le_zero.mp h2)
      subst hs
      rw [replaceLoop_nil, replaceLoop_nil]
    | succ m =>
      cases hm : matchAt b s with
      | some mt =>
        obtain ⟨p, position, rest⟩ := mt
        have hlt := matchAt_length b s p rest position hm
        simp only [replaceLoop, hm]
        rw [ih m false rest _ (by omega) (by omega)]
      | none =>
        cases s with
        | nil => simp [replaceLoop, hm]
        | cons c t =>
          simp only [replaceLoop, hm]
          simp only [List.length_cons] at h1 h2
          rw [ih m false t args (by omega) (by omega)]

theorem scanFrom_nil (b : Bool) (args : List Str) : scanFrom b [] args = [] :=
  replaceLoop_nil 0 b args

theorem scanFrom_match (b : Bool) (s p rest : Str) (position : Option Str) (args : List Str)
    (h : matchAt b s = some (p, position, rest)) :
    scanFrom b s args
      = (replacer p position args).1 ++ scanFrom false rest (replacer p position args).2 := by
  have hlt := matchAt_length b s p rest position h
  unfold scanFrom
  cases hl : s.length with
  | zero => omega
  | succ n =>
    simp only [replaceLoop, h]
    rw [replaceLoop_fuel n rest.length false rest _ (by omega) (le_refl _)]

theorem scanFrom_skip (b : Bool) (c : Char) (t : Str) (args : List Str)
    (h : matchAt b (c :: t) = none) :
    scanFrom b (c :: t) args = c :: scanFrom false t args := by
  unfold scanFrom
  simp only [List.length_cons, replaceLoop, h]

/-! ## Tokens under the pattern -/

theorem takeWhile_digits (ds r : Str) (x : Char) (hds : ds.all Char.isDigit = true)
    (hx : x.isDigit = false) : (ds ++ x :: r).takeWhile Char.isDigit = ds := by
  induction ds with
  | nil => simp [List.takeWhile, hx]
  | cons d rest ih =>
    simp only [List.all_cons, Bool.and_eq_true] at hds
    simp [List.takeWhile, hds.1, ih hds.2]

theorem dropWhile_digits (ds r : Str) (x : Char) (hds : ds.all Char.isDigit = true)
    (hx : x.isDigit = false) : (ds ++ x :: r).dropWhile Char.isDigit = x :: r := by
  induction ds with
  | nil => simp [List.dropWhile, hx]
  | cons d rest ih =>
    simp only [List.all_cons, Bool.and_eq_true] at hds
    simp [List.dropWhile, hds.1, ih hds.2]

theorem matchIndexed_of_not_digit (c : Char) (r : Str) (hc : c.isDigit = false) :
    matchIndexed (c :: r) = none := by
  unfold matchIndexed
  have h1 : (c :: r).takeWhile Char.isDigit = [] := by simp [List.takeWhile, hc]
  have h2 : (c :: r).dropWhile Char.isDigit = c :: r := by simp [List.dropWhile, hc]
  rw [h1, h2]
  cases r with
  | nil => rfl
  | cons e r1 => simp

theorem matchToken_ph (r : Str) : matchToken ('%' :: 's' :: r) = some (none, r) := by
  have h : matchIndexed ('s' :: r) = none := matchIndexed_of_not_digit 's' r (by decide)
  simp [matchToken, h]

theorem matchToken_esc (r : Str) : matchToken ('%' :: '%' :: r) = none := by
  have h : matchIndexed ('%' :: r) = none := matchIndexed_of_not_digit '%' r (by decide)
  simp [matchToken, h]

theorem matchToken_idx (ds r : Str) (hne : ds ≠ []) (hds : ds.all Char.isDigit = true) :
    matchToken ('%' :: (ds ++ '$' :: 's' :: r)) = some (some ds, r) := by
  have h : matchIndexed (ds ++ '$' :: 's' :: r) = some (ds, r) := by
    unfold matchIndexed
    rw [takeWhile_digits ds ('s' :: r) '$' hds (by decide),
      dropWhile_digits ds ('s' :: r) '$' hds (by decide)]
    simp [hne]
  simp [matchToken, h]

theorem matchToken_nil : matchToken [] = none := rfl

/-- What the scanner sees first in the text of a well-formed token list that may not
start with a placeholder: nothing that completes a match with the character before. -/
theorem templateText_idx (ds : Str) (ps : List Piece) :
    templateText (Piece.idx ds :: ps) = '%' :: (ds ++ '$' :: 's' :: templateText ps) := by
  simp [templateText, Piece.text]

/-! ## The first pass on a well-formed template -/

theorem scan_pieces (ps : List Piece) :
    (∀ (args : List Str) (b : Bool) (c : Char), c ≠ '%' → wellFormed true ps = true →
        scanFrom b (c :: templateText ps) args = c :: firstPass ps args)
      ∧ (∀ (args : List Str), wellFormed false ps = true →
        scanFrom false (templateText ps) args = firstPass ps args) := by
  induction ps with
  | nil =>
    refine ⟨?_, ?_⟩
    · intro args b c hc _
      rw [show templateText [] = [] from rfl,
        scanFrom_skip b c [] args (matchAt_lit_none b c [] hc matchToken_nil), scanFrom_nil]
      rfl
    · intro args _
      exact scanFrom_nil false args
  | cons q ps ih =>
    obtain ⟨ih1, ih2⟩ := ih
    cases q with
    | lit d =>
      have key : ∀ (args : List Str), wellFormed true (Piece.lit d :: ps) = true →
          ∀ (b : Bool) (c : Char), c ≠ '%' →
          scanFrom b (c :: templateText (Piece.lit d :: ps)) args
            = c :: firstPass (Piece.lit d :: ps) args := by
        intro args hw b c hc
        simp only [wellFormed, Bool.and_eq_true, decide_eq_true_eq] at hw
        have ht : templateText (Piece.lit d :: ps) = d :: templateText ps := rfl
        rw [ht, scanFrom_skip b c _ args
          (matchAt_lit_none b c _ hc (matchToken_of_ne d _ hw.1)), ih1 args false d hw.1 hw.2]
        rfl
      refine ⟨fun args b c hc hw => key args hw b c hc, ?_⟩
      intro args hw
      simp only [wellFormed, Bool.and_eq_true, decide_eq_true_eq] at hw
      have ht : templateText (Piece.lit d :: ps) = d :: templateText ps := rfl
      rw [ht, ih1 args false d hw.1 hw.2]
      rfl
    | ph =>
      refine ⟨?_, ?_⟩
      · intro args b c hc hw
        simp only [wellFormed, Bool.true_and] at hw
        have ht : templateText (Piece.ph :: ps) = '%' :: 's' :: templateText ps := rfl
        rw [ht, scanFrom_match b _ [c] (templateText ps) none args
          (matchAt_lit_some b c _ _ none hc (matchToken_ph _))]
        simp only [replacer]
        rw [ih2 _ hw]
        simp [firstPass]
      · intro args hw
        simp [wellFormed] at hw
    | idx ds =>
      refine ⟨?_, ?_⟩
      · intro args b c hc hw
        simp only [wellFormed, Bool.true_and, Bool.and_eq_true, decide_eq_true_eq] at hw
        obtain ⟨⟨hne, hds⟩, hw2⟩ := hw
        rw [templateText_idx, scanFrom_match b _ [c] (templateText ps) (some ds) args
          (matchAt_lit_some b c _ _ (some ds) hc (matchToken_idx ds _ hne hds))]
        simp only [replacer]
        rw [ih2 _ hw2]
        simp [firstPass]
      · intro args hw
        simp [wellFormed] at hw
    | esc =>
      have key : ∀ (args : List Str), wellFormed true ps = true →
          scanFrom false (templateText (Piece.esc :: ps)) args
            = firstPass (Piece.esc :: ps) args := by
        intro args hw
        have ht : templateText (Piece.esc :: ps) = '%' :: '%' :: 's' :: templateText ps := rfl
        rw [ht, scanFrom_skip false '%' _ args (matchAt_percent_false _),
          scanFrom_skip false '%' _ args (matchAt_percent_false _),
          ih1 args false 's' (by decide) hw]
        rfl
      refine ⟨?_, ?_⟩
      · intro args b c hc hw
        have hw2 : wellFormed true ps = true := by simpa [wellFormed] using hw
        have ht : templateText (Piece.esc :: ps) = '%' :: '%' :: 's' :: templateText ps := rfl
        rw [scanFrom_skip b c _ args
          (matchAt_lit_none b c _ hc (by rw [ht]; exact matchToken_esc _)), key args hw2]
      · intro args hw
        exact key args (by simpa [wellFormed] using hw)

/-- The first pass of `printf` on the text of a well-formed token list. -/
theorem substitute_pieces (ps : List Piece) (args : List Str)
    (hw : wellFormed true ps = true) :
    substitute (templateText ps) args = firstPass ps args := by
  unfold substitute
  cases ps with
  | nil => exact scanFrom_nil true args
  | cons q ps =>
    cases q with
    | lit d =>
      simp only [wellFormed, Bool.and_eq_true, decide_eq_true_eq] at hw
      have ht : templateText (Piece.lit d :: ps) = d :: templateText ps := rfl
      rw [ht, (scan_pieces ps).1 args true d hw.1 hw.2]
      rfl
    | ph =>
      simp only [wellFormed, Bool.true_and] at hw
      have ht : templateText (Piece.ph :: ps) = '%' :: 's' :: templateText ps := rfl
      rw [ht, scanFrom_match true _ [] (templateText ps) none args
        (matchAt_percent_true_some _ _ none (matchToken_ph _))]
      simp only [replacer]
      rw [(scan_pieces ps).2 _ hw]
      simp [firstPass]
    | idx ds =>
      simp only [wellFormed, Bool.true_and, Bool.and_eq_true, decide_eq_true_eq] at hw
      obtain ⟨⟨hne, hds⟩, hw2⟩ := hw
      rw [templateText_idx, scanFrom_match true _ [] (templateText ps) (some ds) args
        (matchAt_percent_true_some _ _ (some ds) (matchToken_idx ds _ hne hds))]
      simp only [replacer]
      rw [(scan_pieces ps).2 _ hw2]
      simp [firstPass]
    | esc =>
      have hw2 : wellFormed true ps = true := by simpa [wellFormed] using hw
      have ht : templateText (Piece.esc :: ps) = '%' :: '%' :: 's' :: templateText ps := rfl
      rw [ht, scanFrom_skip true '%' _ args (matchAt_percent_none true _ (matchToken_esc _)),
        scanFrom_skip false '%' _ args (matchAt_percent_false _),
        (scan_pieces ps).1 args false 's' (by decide) hw2]
      rfl

/-! ## The second pass -/

theorem unescape_cons_of_ne (c : Char) (s : Str) (hc : c ≠ '%') :
    unescape (c :: s) = c :: unescape s := by
  cases s with
  | nil => rfl
  | cons d s1 =>
    cases s1 with
    | nil => rfl
    | cons e r => simp [unescape, hc]

theorem unescape_append (a s : Str) (ha : '%' ∉ a) : unescape (a ++ s) = a ++ unescape s := by
  induction a with
  | nil => rfl
  | cons c rest ih =>
    simp only [List.mem_cons, not_or] at ha
    have hc : c ≠ '%' := fun e => ha.1 e.symm
    rw [List.cons_append, unescape_cons_of_ne c _ hc, ih ha.2, List.cons_append]

theorem unescape_esc (r : Str) : unescape ('%' :: '%' :: 's' :: r) = '%' :: 's' :: unescape r := by
  simp [unescape]

theorem undefinedStr_free : '%' ∉ undefinedStr := by decide

theorem headD_free (args : List Str) (h : ∀ a ∈ args, '%' ∉ a) :
    '%' ∉ args.headD undefinedStr := by
  cases args with
  | nil => exact undefinedStr_free
  | cons a rest => exact h a (List.mem_cons_self a rest)

theorem getD_free (args : List Str) (n : Nat) (h : ∀ a ∈ args, '%' ∉ a) :
    '%' ∉ args.getD n undefinedStr := by
  induction args generalizing n with
  | nil => simpa using undefinedStr_free
  | cons a rest ih =>
    cases n with
    | zero => simpa using h a (List.mem_cons_self a rest)
    | succ m =>
      simpa using ih m (fun b hb => h b (List.mem_cons_of_mem a hb))

theorem argAt_free (args : List Str) (ds : Str) (h : ∀ a ∈ args, '%' ∉ a) :
    '%' ∉ argAt args ds := by
  unfold argAt
  cases parseInt ds with
  | zero => exact undefinedStr_free
  | succ n => exact getD_free args n h

theorem tail_free (args : List Str) (h : ∀ a ∈ args, '%' ∉ a) : ∀ a ∈ args.tail, '%' ∉ a :=
  fun a ha => h a (List.mem_of_mem_tail ha)

/-- Without indexed placeholders the collapsed first pass is `fill`, whatever `all` is. -/
theorem unescape_firstPass_noIdx (ps : List Piece) :
    ∀ (b : Bool) (all rest : List Str), wellFormed b ps = true →
      ps.all Piece.notIdx = true → (∀ a ∈ rest, '%' ∉ a) →
      unescape (firstPass ps rest) = fill ps all rest := by
  induction ps with
  | nil => intro _ _ _ _ _ _; rfl
  | cons q ps ih =>
    intro b all rest hw hn hf
    simp only [List.all_cons, Bool.and_eq_true] at hn
    cases q with
    | lit c =>
      simp only [wellFormed, Bool.and_eq_true, decide_eq_true_eq] at hw
      simp only [firstPass, fill]
      rw [unescape_cons_of_ne c _ hw.1, ih true all rest hw.2 hn.2 hf]
    | ph =>
      simp only [wellFormed, Bool.and_eq_true] at hw
      simp only [firstPass, fill]
      rw [unescape_append _ _ (headD_free rest hf),
        ih false all rest.tail hw.2 hn.2 (tail_free rest hf)]
    | idx ds => simp [Piece.notIdx] at hn
    | esc =>
      simp only [wellFormed] at hw
      simp only [firstPass, fill]
      rw [unescape_esc, ih true all rest hw hn.2 hf]

/-- Without unindexed placeholders nothing is shifted and the collapsed first pass is
`fill` with the indices read in the array as passed. -/
theorem unescape_firstPass_noPh (ps : List Piece) :
    ∀ (b : Bool) (args : List Str), wellFormed b ps = true →
      ps.all Piece.notPh = true → (∀ a ∈ args, '%' ∉ a) →
      unescape (firstPass ps args) = fill ps args args := by
  induction ps with
  | nil => intro _ _ _ _ _; rfl
  | cons q ps ih =>
    intro b args hw hn hf
    simp only [List.all_cons, Bool.and_eq_true] at hn
    cases q with
    | lit c =>
      simp only [wellFormed, Bool.and_eq_true, decide_eq_true_eq] at hw
      simp only [firstPass, fill]
      rw [unescape_cons_of_ne c _ hw.1, ih true args hw.2 hn.2 hf]
    | ph => simp [Piece.notPh] at hn
    | idx ds =>
      simp only [wellFormed, Bool.and_eq_true] at hw
      simp only [firstPass, fill]
      rw [unescape_append _ _ (argAt_free args ds hf), ih false args hw.2 hn.2 hf]
    | esc =>
      simp only [wellFormed] at hw
      simp only [firstPass, fill]
      rw [unescape_esc, ih true args hw hn.2 hf]

theorem printf_cons (str : Str) (v : Val) (more : List Val) :
    printf str (v :: more) = unescape (substitute str (normArgs (v :: more))) := rfl

/-- The function `printf` on a well-formed template without indexed placeholders. -/
theorem printf_noIdx (ps : List Piece) (rest : List Val) (hrest : rest ≠ [])
    (hw : wellFormed true ps = true) (hn : ps.all Piece.notIdx = true)
    (hf : ∀ a ∈ normArgs rest, '%' ∉ a) :
    printf (templateText ps) rest = fill ps (normArgs rest) (normArgs rest) := by
  cases rest with
  | nil => exact absurd rfl hrest
  | cons v more =>
    rw [printf_cons, substitute_pieces ps _ hw]
    exact unescape_firstPass_noIdx ps true _ _ hw hn hf

/-- The function `printf` on a well-formed template without unindexed placeholders. -/
theorem printf_noPh (ps : List Piece) (rest : List Val) (hrest : rest ≠ [])
    (hw : wellFormed true ps = true) (hn : ps.all Piece.notPh = true)
    (hf : ∀ a ∈ normArgs rest, '%' ∉ a) :
    printf (templateText ps) rest = fill ps (normArgs rest) (normArgs rest) := by
  cases rest with
  | nil => exact absurd rfl hrest
  | cons v more =>
    rw [printf_cons, substitute_pieces ps _ hw]
    exact unescape_firstPass_noPh ps true _ hw hn hf

/-! ## Literal segments as tokens -/

theorem templateText_lits (s : Str) (q : List Piece) :
    templateText (s.map Piece.lit ++ q) = s ++ templateText q := by
  induction s with
  | nil => rfl
  | cons c rest ih => simp [templateText, Piece.text, ih]

theorem fill_lits (s : Str) (q : List Piece) (all rest : List Str) :
    fill (s.map Piece.lit ++ q) all rest = s ++ fill q all rest := by
  induction s with
  | nil => rfl
  | cons c rest1 ih => simp [fill, ih]

theorem wellFormed_lits (s : Str) (q : List Piece) (b : Bool) (hs : '%' ∉ s)
    (hq : wellFormed true q = true) (hb : s ≠ [] ∨ b = true) :
    wellFormed b (s.map Piece.lit ++ q) = true := by
  induction s generalizing b with
  | nil =>
    rcases hb with h | h
    · exact absurd rfl h
    · subst h
      exact hq
  | cons c rest ih =>
    simp only [List.mem_cons, not_or] at hs
    have hc : c ≠ '%' := fun e => hs.1 e.symm
    simp only [List.map_cons, List.cons_append, wellFormed, Bool.and_eq_true,
      decide_eq_true_eq]
    exact ⟨hc, ih true hs.2 (Or.inr rfl)⟩

theorem wellFormed_lits_only (s : Str) (b : Bool) (hs : '%' ∉ s) :
    wellFormed b (s.map Piece.lit) = true := by
  induction s generalizing b with
  | nil => rfl
  | cons c rest ih =>
    simp only [List.mem_cons, not_or] at hs
    have hc : c ≠ '%' := fun e => hs.1 e.symm
    simp only [List.map_cons, wellFormed, Bool.and_eq_true, decide_eq_true_eq]
    exact ⟨hc, ih true hs.2⟩

theorem all_notIdx_lits (s : Str) (q : List Piece) (hq : q.all Piece.notIdx = true) :
    (s.map Piece.lit ++ q).all Piece.notIdx = true := by
  induction s with
  | nil => exact hq
  | cons c rest ih =>
    simp only [List.map_cons, List.cons_append, List.all_cons, Bool.and_eq_true]
    exact ⟨rfl, ih⟩

theorem templateText_segments (ps : List (Str × Str)) :
    templateText (segmentPieces ps) = unindexedTemplate ps := by
  induction ps with
  | nil => rfl
  | cons hd more ih =>
    obtain ⟨a, s⟩ := hd
    have h : templateText (segmentPieces ((a, s) :: more))
        = '%' :: 's' :: templateText (s.map Piece.lit ++ segmentPieces more) := rfl
    rw [h, templateText_lits, ih]
    rfl

theorem fill_segments (ps : List (Str × Str)) (all : List Str) :
    fill (segmentPieces ps) all (ps.map Prod.fst) = unindexedResult ps := by
  induction ps with
  | nil => rfl
  | cons hd more ih =>
    obtain ⟨a, s⟩ := hd
    have h : fill (segmentPieces ((a, s) :: more)) all (((a, s) :: more).map Prod.fst)
        = a ++ fill (s.map Piece.lit ++ segmentPieces more) all (more.map Prod.fst) := rfl
    rw [h, fill_lits, ih]
    rfl

theorem all_notIdx_segments (ps : List (Str × Str)) :
    (segmentPieces ps).all Piece.notIdx = true := by
  induction ps with
  | nil => rfl
  | cons hd more ih =>
    obtain ⟨a, s⟩ := hd
    simp only [segmentPieces, List.all_cons, Bool.and_eq_true]
    exact ⟨rfl, all_notIdx_lits s _ ih⟩

theorem wellFormed_segments (ps : List (Str × Str)) (hs : ∀ p ∈ ps, '%' ∉ p.2)
    (hne : ∀ p ∈ ps.dropLast, p.2 ≠ []) : wellFormed true (segmentPieces ps) = true := by
  induction ps with
  | nil => rfl
  | cons hd more ih =>
    obtain ⟨a, s⟩ := hd
    have hs1 : '%' ∉ s := hs (a, s) (List.mem_cons_self _ _)
    have hsm : ∀ p ∈ more, '%' ∉ p.2 := fun p hp => hs p (List.mem_cons_of_mem _ hp)
    simp only [segmentPieces, wellFormed, Bool.true_and]
    cases more with
    | nil =>
      simpa [segmentPieces] using wellFormed_lits_only s false hs1
    | cons hd2 more2 =>
      have hdl : ((a, s) :: hd2 :: more2).dropLast = (a, s) :: (hd2 :: more2).dropLast := rfl
      have hne1 : s ≠ [] := hne (a, s) (by rw [hdl]; exact List.mem_cons_self _ _)
      have hnem : ∀ p ∈ (hd2 :: more2).dropLast, p.2 ≠ [] :=
        fun p hp => hne p (by rw [hdl]; exact List.mem_cons_of_mem _ hp)
      exact wellFormed_lits s _ false hs1 (ih hsm hnem) (Or.inl hne1)

/-! ## Claims about `printf` -/

/-- C3. Unindexed substitution order. For literal segments `s0, s1, ..., sn` without `%`,
of which `s1, ..., s(n-1)` are non-empty, and arguments `a1, ..., an` without `%` (given
as the pairs `(a1, s1), ..., (an, sn)`), `printf(s0 + "%s" + s1 + ... + "%s" + sn,
[a1, ..., an])` is `s0 + a1 + s1 + ... + an + sn`: the i-th placeholder receives the i-th
argument and every literal character, the one before each placeholder included, is kept.
(The statement also holds for `n = 0`.) -/
theorem printf_unindexed_order (s0 : Str) (ps : List (Str × Str))
    (h0 : '%' ∉ s0) (hs : ∀ p ∈ ps, '%' ∉ p.2) (ha : ∀ p ∈ ps, '%' ∉ p.1)
    (hne : ∀ p ∈ ps.dropLast, p.2 ≠ []) :
    printf (s0 ++ unindexedTemplate ps) [Val.arr (ps.map Prod.fst)]
      = s0 ++ unindexedResult ps := by
  have hw : wellFormed true (s0.map Piece.lit ++ segmentPieces ps) = true :=
    wellFormed_lits s0 _ true h0 (wellFormed_segments ps hs hne) (Or.inr rfl)
  have hn : (s0.map Piece.lit ++ segmentPieces ps).all Piece.notIdx = true :=
    all_notIdx_lits s0 _ (all_notIdx_segments ps)
  have hf : ∀ a ∈ normArgs [Val.arr (ps.map Prod.fst)], '%' ∉ a := by
    intro a hmem
    have hmem2 : a ∈ ps.map Prod.fst := hmem
    obtain ⟨p, hp, rfl⟩ := List.mem_map.mp hmem2
    exact ha p hp
  have h := printf_noIdx (s0.map Piece.lit ++ segmentPieces ps)
    [Val.arr (ps.map Prod.fst)] (by simp) hw hn hf
  rw [templateText_lits, templateText_segments] at h
  rw [h, fill_lits]
  exact congrArg (fun t => s0 ++ t) (fill_segments ps _)

/-- Witness for C3: `printf("%s and %s", ["x", "y"])` is `"x and y"`. -/
theorem printf_unindexed_order_witness :
    printf "%s and %s".toList [Val.arr ["x".toList, "y".toList]] = "x and y".toList :=
  printf_unindexed_order [] [("x".toList, " and ".toList), ("y".toList, [])]
    (by decide) (by decide) (by decide) (by decide)

/-- C4. Indexed substitution is 1-based and repeatable. For every array `args` of
strings without `%` and every template made of literal characters other than `%` and of
indexed placeholders `%N$s` (escaped tokens `%%s` may occur as well), where `N` is a
non-empty string of decimal digits with `1 <= N <= args.length` and no placeholder
directly follows another, `printf(template, args)` is the template with every indexed
placeholder replaced by `args[N - 1]` (this is `fill` with `args` as the indexed array):
an index may occur any number of times and always reads the same element. -/
theorem printf_indexed_one_based (ps : List Piece) (args : List Str)
    (hw : wellFormed true ps = true) (hn : ps.all Piece.notPh = true)
    (hr : ∀ ds, Piece.idx ds ∈ ps → 1 ≤ parseInt ds ∧ parseInt ds ≤ args.length)
    (hf : ∀ a ∈ args, '%' ∉ a) :
    printf (templateText ps) [Val.arr args] = fill ps args args
      ∧ ∀ ds, Piece.idx ds ∈ ps → args[parseInt ds - 1]? = some (argAt args ds) := by
  refine ⟨printf_noPh ps [Val.arr args] (by simp) hw hn hf, ?_⟩
  intro ds hds
  obtain ⟨h1, h2⟩ := hr ds hds
  unfold argAt
  cases hp : parseInt ds with
  | zero => omega
  | succ n =>
    have hlt : n < args.length := by omega
    simp [List.getD, List.getElem?_eq_getElem hlt]

/-- Witness for C4: `printf("%2$s-%1$s-%2$s", ["a", "b"])` is `"b-a-b"`. -/
theorem printf_indexed_one_based_witness :
    printf "%2$s-%1$s-%2$s".toList [Val.arr ["a".toList, "b".toList]] = "b-a-b".toList :=
  (printf_indexed_one_based
    [Piece.idx ['2'], Piece.lit '-', Piece.idx ['1'], Piece.lit '-', Piece.idx ['2']]
    ["a".toList, "b".toList] (by decide) (by decide)
    (by
      intro ds hds
      have h : ds = ['2'] ∨ ds = ['1'] := by
        simp only [List.mem_cons, Piece.idx.injEq, List.mem_singleton, reduceCtorEq,
          false_or, or_false, List.not_mem_nil] at hds
        rcases hds with h | h | h
        · exact Or.inl h
        · exact Or.inr h
        · exact Or.inl h
      rcases h with h | h <;> subst h <;> decide)
    (by decide)).1

/-- C5 (the code departs from the claim). In `printf("%s %1$s", ["a", "b"])` the
unindexed placeholder shifts `"a"` off the array, so `%1$s` then reads `"b"`: the result
is `"a b"` and not `"a a"`. -/
theorem printf_indexed_after_shift :
    printf "%s %1$s".toList [Val.arr ["a".toList, "b".toList]] = "a b".toList
      ∧ printf "%s %1$s".toList [Val.arr ["a".toList, "b".toList]] ≠ "a a".toList := by
  decide

/-- C6. Escape. When at least one argument is passed after the template, for every
template made of literal characters other than `%`, unindexed placeholders `%s` (each at
the start or directly after a literal character or an escaped token) and escaped tokens
`%%s`, and arguments without `%`, the result of `printf` is the template with the
placeholders replaced by the successive arguments and every `%%s` replaced by `%s`; an
escaped token is not substituted and takes no argument. -/
theorem printf_escape (ps : List Piece) (rest : List Val) (hrest : rest ≠ [])
    (hw : wellFormed true ps = true) (hn : ps.all Piece.notIdx = true)
    (hf : ∀ a ∈ normArgs rest, '%' ∉ a) :
    printf (templateText ps) rest = fill ps (normArgs rest) (normArgs rest) :=
  printf_noIdx ps rest hrest hw hn hf

/-- Witness for C6: `printf("100%%s done, %s", "ok")` is `"100%s done, ok"`. -/
theorem printf_escape_witness :
    printf "100%%s done, %s".toList [Val.str "ok".toList] = "100%s done, ok".toList :=
  printf_escape
    ([Piece.lit '1', Piece.lit '0', Piece.lit '0', Piece.esc] ++ " done,".toList.map Piece.lit
      ++ [Piece.lit ' ', Piece.ph])
    [Val.str "ok".toList] (by decide) (by decide) (by decide) (by decide)

/-! ## Loading dictionaries -/

theorem V105.refresh_dict (st : State) : (V105.refresh st)._dict = st._dict := by
  unfold V105.refresh
  split
  · split <;> rfl
  · rfl

theorem V105.refresh_locale (st : State) : (V105.refresh st)._locale = st._locale := by
  unfold V105.refresh
  split
  · split <;> rfl
  · rfl

theorem V105.refresh_fallback (st : State) :
    (V105.refresh st)._fallbackLocale = st._fallbackLocale := by
  unfold V105.refresh
  split
  · split <;> rfl
  · rfl

theorem V102.refresh_keeps_dict (st : State) : (V102.refresh st)._dict = st._dict := by
  unfold V102.refresh
  split
  · split <;> rfl
  · rfl

theorem V105.load_dict (st : State) (D : Dict) :
    (V105.load st D)._dict = some (extend (st._dict.getD []) D) := by
  unfold V105.load
  rw [V105.refresh_dict]

theorem V102.load_stored_dict (st : State) (D : Dict) :
    ∃ d, (V102.load st D)._dict = some d
      ∧ ∀ x, Obj.get d x = match Obj.get D x with
          | some t => some t
          | none => Obj.get (st._dict.getD []) x := by
  unfold V102.load
  cases h : st._dict with
  | none =>
    refine ⟨D, by simp [V102.refresh_keeps_dict], ?_⟩
    intro x
    cases Obj.get D x <;> simp [Obj.get]
  | some stored =>
    refine ⟨extend stored D, by simp [V102.refresh_keeps_dict], ?_⟩
    intro x
    rw [get_extend]
    cases Obj.get D x <;> rfl

/-- The effective table of the 1.0.5 build for a single non-empty code and no fallback
is a copy of that code's stored table. -/
theorem V105.refresh_single (st : State) (d : Dict) (c : Str) (hd : st._dict = some d)
    (hl : st._locale = some (Locale.single c)) (hc : c ≠ [])
    (hfb : st._fallbackLocale = none) :
    ∃ t, (V105.refresh st)._current = some t
      ∧ ∀ k, Obj.get t k = Obj.get ((Obj.get d c).getD []) k := by
  have ht : localeTruthy (some (Locale.single c)) = true := by
    cases c with
    | nil => exact absurd rfl hc
    | cons x r => rfl
  refine ⟨mergeLocales d [c], ?_, ?_⟩
  · simp [V105.refresh, hd, hl, ht, hfb, V105.getLocales, Locale.toSeq]
  · intro k
    rw [get_mergeLocales]
    cases h : Obj.get ((Obj.get d c).getD []) k <;> simp [List.findSome?_cons, h]

/-- C7 (as amended). After `load(D1)` followed by `load(D2)` the stored dictionary
answers a locale `x` with the table of `D2` when `D2` has one, else with the table of
`D1`, else with what was stored before, in both builds: a stored table is replaced as a
whole and never extended key by key.  In the 1.0.5 build the two loads leave the
locale preference unchanged, and when that preference is the single non-empty code `c`,
no fallback is set and `D2` has the table `T2` for `c`, translating a key succeeds
exactly for the keys of `T2`; a key of `D1[c]` that is not in `T2` fails with the
key-not-found message. -/
theorem load_replaces_locale_table (st : State) (D1 D2 : Dict) :
    (∃ d, (V105.load (V105.load st D1) D2)._dict = some d
        ∧ ∀ x, Obj.get d x = match Obj.get D2 x with
            | some t => some t
            | none => match Obj.get D1 x with
              | some t => some t
              | none => Obj.get (st._dict.getD []) x)
      ∧ (∃ d, (V102.load (V102.load st D1) D2)._dict = some d
        ∧ ∀ x, Obj.get d x = match Obj.get D2 x with
            | some t => some t
            | none => match Obj.get D1 x with
              | some t => some t
              | none => Obj.get (st._dict.getD []) x)
      ∧ (V105.load (V105.load st D1) D2)._locale = st._locale
      ∧ (∀ c T2, st._locale = some (Locale.single c) → c ≠ [] →
          st._fallbackLocale = none → Obj.get D2 c = some T2 →
          ∀ k rest, V105.translateString (V105.load (V105.load st D1) D2) k rest
            = match Obj.get T2 k with
              | some template => Except.ok (printf template rest)
              | none => Except.error (notFoundMsg k)) := by
  have hdict : (V105.load (V105.load st D1) D2)._dict
      = some (extend (extend (st._dict.getD []) D1) D2) := by
    rw [V105.load_dict, V105.load_dict]
    rfl
  have hget : ∀ x, Obj.get (extend (extend (st._dict.getD []) D1) D2) x
      = match Obj.get D2 x with
        | some t => some t
        | none => match Obj.get D1 x with
          | some t => some t
          | none => Obj.get (st._dict.getD []) x := by
    intro x
    rw [get_extend, get_extend]
    cases Obj.get D2 x <;> cases Obj.get D1 x <;> rfl
  refine ⟨⟨_, hdict, hget⟩, ?_, ?_, ?_⟩
  · obtain ⟨d1, hd1, hg1⟩ := V102.load_stored_dict st D1
    obtain ⟨d2, hd2, hg2⟩ := V102.load_stored_dict (V102.load st D1) D2
    refine ⟨d2, hd2, ?_⟩
    intro x
    rw [hg2 x, hd1]
    simp only [Option.getD_some]
    rw [hg1 x]
  · simp [V105.load, V105.refresh_locale]
  · intro c T2 hl hc hfb h2 k rest
    have hstep : V105.load (V105.load st D1) D2
        = V105.refresh { (V105.load st D1) with
            _dict := some (extend ((V105.load st D1)._dict.getD []) D2) } := rfl
    have hl1 : (V105.load st D1)._locale = some (Locale.single c) := by
      simp [V105.load, V105.refresh_locale, hl]
    have hf1 : (V105.load st D1)._fallbackLocale = none := by
      simp [V105.load, V105.refresh_fallback, hfb]
    obtain ⟨t, ht, hk⟩ := V105.refresh_single
      { (V105.load st D1) with _dict := some (extend ((V105.load st D1)._dict.getD []) D2) }
      (extend ((V105.load st D1)._dict.getD []) D2) c rfl hl1 hc hf1
    have hc2 : Obj.get (extend ((V105.load st D1)._dict.getD []) D2) c = some T2 := by
      rw [get_extend, h2]
    rw [hstep]
    unfold V105.translateString
    rw [ht]
    simp only
    rw [hk k, hc2]
    simp only [Option.getD_some]
    cases Obj.get T2 k <;> rfl

/-- Counterexample to C7 as stated: after `load({en: {a: "A"}})` and
`load({en: {b: "B"}})` with locale `"en"`, in both builds the stored table for `en`
is `{b: "B"}`; the key `a` of the first dictionary is gone and translating it fails in
the 1.0.5 build. -/
theorem load_extends_table_counterexample :
    Obj.get ((Obj.get dictFirst "en".toList).getD []) "a".toList = some "A".toList
      ∧ (V105.load (V105.load englishState dictFirst) dictSecond)._dict
          = some [("en".toList, [("b".toList, "B".toList)])]
      ∧ (V102.load (V102.load englishState dictFirst) dictSecond)._dict
          = some [("en".toList, [("b".toList, "B".toList)])]
      ∧ V105.translateString (V105.load (V105.load englishState dictFirst) dictSecond)
          "a".toList [] = Except.error (notFoundMsg "a".toList) := by
  refine ⟨by decide, by decide, by decide, ?_⟩
  rfl

/-- Witness for C7 as amended, on the same two dictionaries: `b` translates and `a`
fails. -/
theorem load_replaces_locale_table_witness :
    V105.translateString (V105.load (V105.load englishState dictFirst) dictSecond)
        "b".toList [] = Except.ok "B".toList
      ∧ V105.translateString (V105.load (V105.load englishState dictFirst) dictSecond)
        "a".toList [] = Except.error (notFoundMsg "a".toList) := by
  have h := (load_replaces_locale_table englishState dictFirst dictSecond).2.2.2
    "en".toList [("b".toList, "B".toList)] rfl (by decide) rfl (by decide)
  exact ⟨h "b".toList [], h "a".toList []⟩

/-! ## Asset paths -/

theorem lastIndexOfFrom_absent (c : Char) (b : Str) (hb : c ∉ b) :
    ∀ (i : Nat) (acc : Int), lastIndexOfFrom c b i acc = acc := by
  induction b with
  | nil => intro i acc; rfl
  | cons x rest ih =>
    intro i acc
    simp only [List.mem_cons, not_or] at hb
    have hx : ¬ x = c := fun e => hb.1 e.symm
    simp only [lastIndexOfFrom, hx, if_false]
    exact ih hb.2 (i + 1) acc

theorem lastIndexOfFrom_last (c : Char) (a b : Str) (hb : c ∉ b) :
    ∀ (i : Nat) (acc : Int), lastIndexOfFrom c (a ++ c :: b) i acc = ((i + a.length : Nat) : Int) := by
  induction a with
  | nil =>
    intro i acc
    simp only [List.nil_append, lastIndexOfFrom, if_true, List.length_nil, Nat.add_zero]
    exact lastIndexOfFrom_absent c b hb (i + 1) i
  | cons x rest ih =>
    intro i acc
    have hstep : lastIndexOfFrom c (x :: rest ++ c :: b) i acc
        = lastIndexOfFrom c (rest ++ c :: b) (i + 1) (if x = c then (i : Int) else acc) := rfl
    rw [hstep, ih (i + 1)]
    simp only [List.length_cons]
    congr 1
    omega

theorem lastIndexOf_last (a b : Str) (c : Char) (hb : c ∉ b) :
    lastIndexOf (a ++ c :: b) c = (a.length : Int) := by
  unfold lastIndexOf
  rw [lastIndexOfFrom_last c a b hb 0 (-1)]
  simp

theorem lastIndexOf_absent (s : Str) (c : Char) (hs : c ∉ s) : lastIndexOf s c = -1 :=
  lastIndexOfFrom_absent c s hs 0 (-1)

theorem substring_nat (s : Str) (i j : Nat) (hij : i ≤ j) (hj : j ≤ s.length) :
    substring s (i : Int) (j : Int) = (s.drop i).take (j - i) := by
  unfold substring
  simp only [Int.toNat_ofNat]
  rw [min_eq_left (le_trans hij hj), min_eq_left hj, min_eq_left hij, max_eq_right hij]

/-- With an extension, the candidate has the separator and the code before the last dot. -/
theorem candidate_with_dot (separator lang a b : Str) (hb : '.' ∉ b) :
    candidate separator (a ++ '.' :: b) lang = a ++ separator ++ lang ++ '.' :: b := by
  unfold candidate
  rw [lastIndexOf_last a b '.' hb]
  have h1 : substring (a ++ '.' :: b) 0 (a.length : Int) = a := by
    have h := substring_nat (a ++ '.' :: b) 0 a.length (Nat.zero_le _) (by simp)
    rw [Nat.cast_zero] at h
    rw [h]
    simp
  have h2 : substring (a ++ '.' :: b) (a.length : Int) ((a ++ '.' :: b).length : Int)
      = '.' :: b := by
    rw [substring_nat (a ++ '.' :: b) a.length (a ++ '.' :: b).length (by simp) (le_refl _)]
    simp
  simp only [h1, h2]

/-- Without a dot, `lastIndexOf` is `-1`, both `substring` calls clamp it to `0`, and the
separator and the code end up in front of the whole path. -/
theorem candidate_without_dot (separator lang file : Str) (hf : '.' ∉ file) :
    candidate separator file lang = separator ++ lang ++ file := by
  unfold candidate
  rw [lastIndexOf_absent file '.' hf]
  have h1 : substring file 0 (-1) = [] := by simp [substring]
  have h2 : substring file (-1) (file.length : Int) = file := by simp [substring]
  simp only [h1, h2, List.nil_append]

theorem probeLoop_first (probe : Str → Bool) (separator file : Str) (pre : List Str)
    (c : Str) (post : List Str)
    (hpre : ∀ x ∈ pre, probe (candidate separator file x) = false)
    (hc : probe (candidate separator file c) = true) :
    V105.probeLoop probe separator file (pre ++ c :: post) = candidate separator file c := by
  induction pre with
  | nil => simp [V105.probeLoop, hc]
  | cons x rest ih =>
    have hx := hpre x (List.mem_cons_self x rest)
    simp only [List.cons_append, V105.probeLoop, hx]
    exact ih (fun y hy => hpre y (List.mem_cons_of_mem x hy))

theorem probeLoop_none (probe : Str → Bool) (separator file : Str) (l : List Str)
    (hl : ∀ x ∈ l, probe (candidate separator file x) = false) :
    V105.probeLoop probe separator file l = file := by
  induction l with
  | nil => rfl
  | cons x rest ih =>
    have hx := hl x (List.mem_cons_self x rest)
    simp only [V105.probeLoop, hx]
    exact ih (fun y hy => hl y (List.mem_cons_of_mem x hy))

/-- C8. Asset path resolution of the 1.0.5 `translateFile`, the HEAD request being a
predicate `probe` on URLs that is false exactly for status 404. With a falsy locale
preference the path comes back unchanged. Otherwise, for a path `a + "." + b` whose last
dot is the one shown, the result is `a + fileSeparator + c + "." + b` for the first code
`c` of the priority sequence (`getLocales`: the preference in order, then the fallback)
whose candidate the probe accepts, whatever the probe answers for later codes; and when
the probe rejects the candidate of every code the original path comes back. -/
theorem V105.translateFile_first_existing (st : State) (fileSeparator : Str)
    (probe : Str → Bool) (file : Str) :
    (localeTruthy st._locale = false →
        V105.translateFile st fileSeparator probe file = file)
      ∧ (∀ P, st._locale = some P → localeTruthy (some P) = true →
          ∀ a b, file = a ++ '.' :: b → '.' ∉ b →
            (∀ pre c post, V105.getLocales P st._fallbackLocale = pre ++ c :: post →
              (∀ x ∈ pre, probe (a ++ fileSeparator ++ x ++ '.' :: b) = false) →
              probe (a ++ fileSeparator ++ c ++ '.' :: b) = true →
              V105.translateFile st fileSeparator probe file
                = a ++ fileSeparator ++ c ++ '.' :: b)
            ∧ ((∀ x ∈ V105.getLocales P st._fallbackLocale,
                  probe (a ++ fileSeparator ++ x ++ '.' :: b) = false) →
              V105.translateFile st fileSeparator probe file = file)) := by
  refine ⟨?_, ?_⟩
  · intro h
    unfold V105.translateFile
    cases hl : st._locale with
    | none => rfl
    | some P =>
      rw [hl] at h
      simp [h]
  · intro P hP hT a b hfile hb
    have hrun : V105.translateFile st fileSeparator probe file
        = V105.probeLoop probe fileSeparator file (V105.getLocales P st._fallbackLocale) := by
      simp [V105.translateFile, hP, hT]
    have hcand : ∀ x, candidate fileSeparator file x = a ++ fileSeparator ++ x ++ '.' :: b := by
      intro x
      rw [hfile]
      exact candidate_with_dot fileSeparator x a b hb
    refine ⟨?_, ?_⟩
    · intro pre c post hseq hpre hc
      rw [hrun, hseq, probeLoop_first probe fileSeparator file pre c post
        (fun x hx => by rw [hcand x]; exact hpre x hx) (by rw [hcand c]; exact hc)]
      exact hcand c
    · intro hall
      rw [hrun]
      exact probeLoop_none probe fileSeparator file _
        (fun x hx => by rw [hcand x]; exact hall x hx)

/-- Witness for C8: preference `["fr", "en"]`, `img/logo_fr.png` answers 404 and
`img/logo_en.png` does not, so the result is `img/logo_en.png`. -/
theorem V105.translateFile_first_existing_witness :
    V105.translateFile sampleState "_".toList sampleProbe "img/logo.png".toList
      = "img/logo_en.png".toList :=
  ((V105.translateFile_first_existing sampleState "_".toList sampleProbe
      "img/logo.png".toList).2 (Locale.many ["fr".toList, "en".toList]) rfl rfl
      "img/logo".toList "png".toList (by decide) (by decide)).1
    ["fr".toList] "en".toList [] (by decide) (by decide) (by decide)

/-- C9 (the code departs from the claim). For the path `logo`, which has no dot, and the
locale `en`, the candidate built by `translateFile` is `_enlogo` in both builds and not
`logo_en`: the code is put in front of the path instead of at its end. -/
theorem translateFile_without_extension :
    candidate "_".toList "logo".toList "en".toList = "_enlogo".toList
      ∧ V105.translateFile englishState "_".toList (fun _ => true) "logo".toList
          = "_enlogo".toList
      ∧ V102.translateFile englishState "logo".toList = "_enlogo".toList
      ∧ "_enlogo".toList ≠ "logo".toList ++ "_".toList ++ "en".toList := by
  decide

/-! ## `translateString` of the 1.0.2 build -/

/-- The 1.0.2 `translateString` hands the key, not the stored template, to `printf`. -/
theorem V102.translateString_of_key (st : State) (t : Table) (k template : Str)
    (rest : List Val) (hc : st._current = some t) (hk : Obj.get t k = some template) :
    V102.translateString st k rest = Except.ok (printf k rest) := by
  simp [V102.translateString, hc, hk]

/-- C10 (the code departs from the claim). With the effective table
`{a: "A", g: "Hi %s"}` the 1.0.2 `translateString("a")` returns the key `"a"`, not the
stored template `"A"`, and `translateString("g", "Bob")` returns `"g"`, whereas the
1.0.5 build returns `"Hi Bob"`. -/
theorem V102.translateString_returns_key :
    V102.translateString readyState "a".toList [] = Except.ok "a".toList
      ∧ Obj.get [("a".toList, "A".toList), ("g".toList, "Hi %s".toList)] "a".toList
          = some "A".toList
      ∧ V102.translateString readyState "g".toList [Val.str "Bob".toList]
          = Except.ok "g".toList
      ∧ V105.translateString readyState "g".toList [Val.str "Bob".toList]
          = Except.ok "Hi Bob".toList := by
  refine ⟨rfl, by decide, ?_, ?_⟩
  · exact congrArg Except.ok (by decide)
  · exact congrArg Except.ok (by decide)

/-- The 1.0.2 `translateString` throws for every key that the effective table lacks. -/
theorem V102.translateString_of_missing (st : State) (t : Table) (k : Str) (rest : List Val)
    (hc : st._current = some t) (hk : Obj.get t k = none) :
    V102.translateString st k rest = Except.error (notFoundMsg k) := by
  simp [V102.translateString, hc, hk]

/-- C11 (the code departs from the claim). With the effective table
`{a: "A", g: "Hi %s"}`, which has no entry `z`, the 1.0.2 `translateString("z")` throws
the key-not-found message and does not return the word `"z"`, although its docstring
says that the original word is returned when no translation is found. -/
theorem V102.translateString_missing_throws :
    readyState._current = some [("a".toList, "A".toList), ("g".toList, "Hi %s".toList)]
      ∧ Obj.get [("a".toList, "A".toList), ("g".toList, "Hi %s".toList)] "z".toList = none
      ∧ V102.translateString readyState "z".toList [] = Except.error (notFoundMsg "z".toList)
      ∧ V102.translateString readyState "z".toList [] ≠ Except.ok "z".toList := by
  refine ⟨rfl, by decide, rfl, ?_⟩
  intro h
  cases h

/-! ## The stored preference of the 1.0.2 build -/

/-- C12 (the code departs from the claim). In the 1.0.2 build, after
`load({en: {a: "A"}, fr: {a: "F", b: "B"}})`, `locale = ["fr"]` and
`fallbackLocale = "en"`, reading `locale` gives `["fr", "en"]` and not `["fr"]`: the
rebuild pushes the fallback into the stored array. -/
theorem V102.locale_getter_grows :
    (V102.setFallbackLocale
        (V102.setLocale (V102.load State.initial sampleDict)
          (some (Locale.many ["fr".toList])))
        (some "en".toList))._locale = some (Locale.many ["fr".toList, "en".toList])
      ∧ (V102.setFallbackLocale
        (V102.setLocale (V102.load State.initial sampleDict)
          (some (Locale.many ["fr".toList])))
        (some "en".toList))._locale ≠ some (Locale.many ["fr".toList]) := by
  decide

/-- C13 (the code departs from the claim). In the 1.0.2 build, after
`load({en: {a: "A"}, fr: {a: "F", b: "B"}})`, `locale = ["en"]`, `fallbackLocale = "fr"`
and `fallbackLocale = "de"`, the stored preference is `["en", "fr", "de"]` and the
effective table still has the key `b`, which occurs only in the table of the first
fallback `fr`; the merge over `en` and `de` alone has no `b`, and translating `b` does
not fail. -/
theorem V102.first_fallback_stays :
    fallbackTwice._locale = some (Locale.many ["en".toList, "fr".toList, "de".toList])
      ∧ fallbackTwice._current = some [("a".toList, "A".toList), ("b".toList, "B".toList)]
      ∧ Obj.get (mergeLocales sampleDict ["en".toList, "de".toList]) "b".toList = none
      ∧ V102.translateString fallbackTwice "b".toList [] = Except.ok "b".toList := by
  refine ⟨by decide, by decide, by decide, ?_⟩
  rfl

/-! ## Reset -/

/-- C16. Reset clears all state. From every state, after `reset()` the dictionary, the
locale preference, the fallback locale and the effective table are `null` in both
builds; `translateString` of any key with any arguments then throws the not-ready
message, and `translateFile` returns its argument unchanged, whatever the separator
and the probe. -/
theorem reset_clears_state (st : State) (key : Str) (rest : List Val)
    (fileSeparator : Str) (probe : Str → Bool) (file : Str) :
    ((V105.reset st)._dict = none ∧ (V105.reset st)._locale = none
        ∧ (V105.reset st)._fallbackLocale = none ∧ (V105.reset st)._current = none)
      ∧ V105.translateString (V105.reset st) key rest = Except.error notReadyMsg
      ∧ V105.translateFile (V105.reset st) fileSeparator probe file = file
      ∧ ((V102.reset st)._dict = none ∧ (V102.reset st)._locale = none
        ∧ (V102.reset st)._fallbackLocale = none ∧ (V102.reset st)._current = none)
      ∧ V102.translateString (V102.reset st) key rest = Except.error notReadyMsg
      ∧ V102.translateFile (V102.reset st) file = file :=
  ⟨⟨rfl, rfl, rfl, rfl⟩, rfl, rfl, ⟨rfl, rfl, rfl, rfl⟩, rfl, rfl⟩

/-- Witness for C16: after load, locale and reset, translating `a` throws the
not-ready message. -/
theorem reset_clears_state_witness :
    V105.translateString (V105.reset (V105.refresh sampleState)) "a".toList []
      = Except.error notReadyMsg :=
  (reset_clears_state (V105.refresh sampleState) "a".toList [] "_".toList
    (fun _ => true) "img/logo.png".toList).2.1

/-! ## Further evaluations of `printf` -/

/-- C18 (the code departs from the claim). `printf("%s%s", ["x", "y"])` is `"x%s"` and
not `"xy"`: the first match ends right before the second `%`, no character is left for
the group `([^%]|^)`, and the second placeholder stays in the text. -/
theorem printf_adjacent_placeholders :
    printf "%s%s".toList [Val.arr ["x".toList, "y".toList]] = "x%s".toList
      ∧ printf "%s%s".toList [Val.arr ["x".toList, "y".toList]] ≠ "xy".toList := by
  decide

/-- C20 (the code departs from the claim). `printf("a%sb", ["%%s"])` is `"a%sb"` and
not `"a%%sb"`: the pass that collapses `%%s` runs over the substituted text and
rewrites the argument. -/
theorem printf_argument_collapsed :
    printf "a%sb".toList [Val.arr ["%%s".toList]] = "a%sb".toList
      ∧ printf "a%sb".toList [Val.arr ["%%s".toList]]
          ≠ "a".toList ++ "%%s".toList ++ "b".toList := by
  decide

/-! ## Rebuilding twice -/

theorem Obj.set_eq_self {α : Type} (o : Obj α) (k : Str) (v : α)
    (h : Obj.get o k = some v) : Obj.set o k v = o := by
  induction o with
  | nil => simp [Obj.get] at h
  | cons hd tl ih =>
    obtain ⟨k0, v0⟩ := hd
    by_cases hk : k = k0
    · subst hk
      simp only [Obj.get, if_true] at h
      injection h with h
      subst h
      simp [Obj.set]
    · simp only [Obj.get, hk, if_false] at h
      simp [Obj.set, hk, ih h]

theorem extend_loop_eq_self {α : Type} (options : Obj α) (names : List Str) (target : Obj α)
    (h : ∀ n ∈ names, ∀ v, Obj.get options n = some v → Obj.get target n = some v) :
    names.foldl (fun t name =>
        match Obj.get options name with
        | some copy => Obj.set t name copy
        | none => t) target = target := by
  induction names with
  | nil => rfl
  | cons n rest ih =>
    have hrest : ∀ m ∈ rest, ∀ v, Obj.get options m = some v → Obj.get target m = some v :=
      fun m hm => h m (List.mem_cons_of_mem n hm)
    simp only [List.foldl_cons]
    cases hn : Obj.get options n with
    | none => exact ih hrest
    | some v =>
      simp only
      rw [Obj.set_eq_self target n v (h n (List.mem_cons_self n rest) v hn)]
      exact ih hrest

/-- Copying properties that the target already has with the same values changes nothing. -/
theorem extend_eq_self {α : Type} (target options : Obj α)
    (h : ∀ k v, Obj.get options k = some v → Obj.get target k = some v) :
    extend target options = target :=
  extend_loop_eq_self options _ target (fun n _ v hv => h n v hv)

theorem mergeLocales_append (dict : Dict) (xs ys : List Str) :
    mergeLocales dict (xs ++ ys)
      = xs.foldr (fun lang current => extend current ((Obj.get dict lang).getD []))
          (mergeLocales dict ys) := by
  unfold mergeLocales
  rw [List.foldr_append]

/-- Merging the same code twice at the end gives the table of merging it once. -/
theorem mergeLocales_twice (dict : Dict) (xs : List Str) (fb : Str) :
    mergeLocales dict ((xs ++ [fb]) ++ [fb]) = mergeLocales dict (xs ++ [fb]) := by
  have htwo : mergeLocales dict [fb, fb] = mergeLocales dict [fb] := by
    have h1 : mergeLocales dict [fb, fb]
        = extend (mergeLocales dict [fb]) ((Obj.get dict fb).getD []) := rfl
    rw [h1]
    apply extend_eq_self
    intro k v hv
    have h2 : mergeLocales dict [fb] = extend [] ((Obj.get dict fb).getD []) := rfl
    rw [h2, get_extend, hv]
  have hlist : [fb] ++ [fb] = [fb, fb] := rfl
  rw [List.append_assoc, mergeLocales_append dict xs ([fb] ++ [fb]),
    mergeLocales_append dict xs [fb], hlist, htwo]

theorem V105.refresh_idem (st : State) : V105.refresh (V105.refresh st) = V105.refresh st := by
  cases hl : st._locale with
  | none => simp [V105.refresh, hl]
  | some locale =>
    cases hd : st._dict with
    | none => simp [V105.refresh, hl, hd]
    | some dict =>
      by_cases ht : localeTruthy (some locale) = true
      · simp [V105.refresh, hl, hd, ht]
      · simp [V105.refresh, hl, hd, ht]

theorem V102.refresh_current_idem (st : State) :
    (V102.refresh (V102.refresh st))._current = (V102.refresh st)._current := by
  cases hl : st._locale with
  | none => simp [V102.refresh, hl]
  | some stored =>
    cases hd : st._dict with
    | none => simp [V102.refresh, hl, hd]
    | some dict =>
      by_cases ht : localeTruthy (some stored) = true
      · cases hf : st._fallbackLocale with
        | none =>
          cases stored with
          | single code => simp [V102.refresh, hl, hd, ht, hf, Locale.toSeq]
          | many codes => simp [V102.refresh, hl, hd, hf, localeTruthy, Locale.toSeq]
        | some fb =>
          by_cases hfb : strTruthy (some fb) = true
          · cases stored with
            | single code => simp [V102.refresh, hl, hd, ht, hf, hfb, Locale.toSeq]
            | many codes =>
              have h := mergeLocales_twice dict codes fb
              simp [V102.refresh, hl, hd, hf, hfb, localeTruthy, Locale.toSeq]
              simpa using h
          · cases stored with
            | single code => simp [V102.refresh, hl, hd, ht, hf, hfb, Locale.toSeq]
            | many codes => simp [V102.refresh, hl, hd, hf, hfb, localeTruthy, Locale.toSeq]
      · simp [V102.refresh, hl, hd, ht]

/-- C14. The merge rebuild is idempotent in both builds. For every state (in particular
every state with a dictionary and a locale preference set), running `refresh` twice in
a row leaves the same effective table, property for property, as running it once. In
the 1.0.2 build the second run sees the fallback a second time at the end of the
stored array, and merging its table again changes nothing. -/
theorem refresh_twice_same_table (st : State) :
    (V105.refresh (V105.refresh st))._current = (V105.refresh st)._current
      ∧ (V102.refresh (V102.refresh st))._current = (V102.refresh st)._current :=
  ⟨by rw [V105.refresh_idem], V102.refresh_current_idem st⟩

/-- Witness for C14 on `{en: {a: "A"}, fr: {a: "F", b: "B"}}` with preference
`["fr", "en"]`: two rebuilds of either build leave `{a: "F", b: "B"}`. -/
theorem refresh_twice_same_table_witness :
    (V105.refresh (V105.refresh sampleState))._current
        = some [("a".toList, "F".toList), ("b".toList, "B".toList)]
      ∧ (V102.refresh (V102.refresh sampleState))._current
        = some [("a".toList, "F".toList), ("b".toList, "B".toList)] := by
  obtain ⟨h1, h2⟩ := refresh_twice_same_table sampleState
  rw [h1, h2]
  decide

/-! ## The two rebuilds side by side -/

theorem findSome_append_none {α β : Type} (f : α → Option β) (l : List α) (y : α)
    (hy : f y = none) : (l ++ [y]).findSome? f = l.findSome? f := by
  induction l with
  | nil => simp [List.findSome?_cons, hy]
  | cons x rest ih =>
    cases hx : f x with
    | none => simp [List.findSome?_cons, hx, ih]
    | some v => simp [List.findSome?_cons, hx]

theorem findSome_append_mem {α β : Type} (f : α → Option β) (l : List α) (y : α)
    (hy : y ∈ l) : (l ++ [y]).findSome? f = l.findSome? f := by
  induction l with
  | nil => simp at hy
  | cons x rest ih =>
    cases hx : f x with
    | some v => simp [List.findSome?_cons, hx]
    | none =>
      by_cases hyx : y = x
      · subst hyx
        have h := findSome_append_none f rest y hx
        simp [List.findSome?_cons, hx, h]
      · have hmem : y ∈ rest := by
          simpa [hyx] using hy
        simp [List.findSome?_cons, hx, ih hmem]

/-- Appending a code that already occurs does not change what the merged table answers. -/
theorem get_mergeLocales_append_mem (dict : Dict) (l : List Str) (fb k : Str) (h : fb ∈ l) :
    Obj.get (mergeLocales dict (l ++ [fb])) k = Obj.get (mergeLocales dict l) k := by
  rw [get_mergeLocales, get_mergeLocales]
  exact findSome_append_mem _ l fb h

/-- C19. The two shipped rebuilds agree on a single rebuild. From every state (any
dictionary, any preference, single code or sequence, any fallback, set or not, occurring
in the preference or not), one run of the 1.0.2 `refresh` and one run of the 1.0.5
`refresh` either both leave no effective table or leave effective tables that answer
every key alike (same keys, same values). -/
theorem refresh_builds_agree (st : State) :
    ((V102.refresh st)._current = none ↔ (V105.refresh st)._current = none)
      ∧ ∀ t1 t2, (V102.refresh st)._current = some t1 →
          (V105.refresh st)._current = some t2 → ∀ k, Obj.get t1 k = Obj.get t2 k := by
  cases hl : st._locale with
  | none =>
    refine ⟨by simp [V102.refresh, V105.refresh, hl], ?_⟩
    intro t1 t2 h1 h2 k
    simp only [V102.refresh, V105.refresh, hl] at h1 h2
    rw [h1] at h2
    injection h2 with h2
    rw [h2]
  | some stored =>
    cases hd : st._dict with
    | none =>
      refine ⟨by simp [V102.refresh, V105.refresh, hl, hd], ?_⟩
      intro t1 t2 h1 h2 k
      simp only [V102.refresh, V105.refresh, hl, hd] at h1 h2
      rw [h1] at h2
      injection h2 with h2
      rw [h2]
    | some dict =>
      by_cases ht : localeTruthy (some stored) = true
      · have h105 : (V105.refresh st)._current
            = some (mergeLocales dict (V105.getLocales stored st._fallbackLocale)) := by
          simp [V105.refresh, hl, hd, ht]
        have h102 : (V102.refresh st)._current
            = some (mergeLocales dict
                (match st._fallbackLocale with
                  | some fb => if strTruthy (some fb) then stored.toSeq ++ [fb] else stored.toSeq
                  | none => stored.toSeq)) := by
          simp [V102.refresh, hl, hd, ht]
        refine ⟨by simp [h105, h102], ?_⟩
        intro t1 t2 h1 h2 k
        rw [h102] at h1
        rw [h105] at h2
        injection h1 with h1
        injection h2 with h2
        subst h1
        subst h2
        cases hf : st._fallbackLocale with
        | none => simp [V105.getLocales]
        | some fb =>
          by_cases hfb : strTruthy (some fb) = true
          · by_cases hmem : fb ∈ stored.toSeq
            · simp only [V105.getLocales, hfb, hmem, not_true_eq_false, and_false, if_false,
                if_true]
              exact get_mergeLocales_append_mem dict stored.toSeq fb k hmem
            · simp [V105.getLocales, hfb, hmem]
          · simp [V105.getLocales, hfb]
      · have hfalse : localeTruthy (some stored) = false := by
          cases h : localeTruthy (some stored) with
          | true => exact absurd h ht
          | false => rfl
        refine ⟨by simp [V102.refresh, V105.refresh, hl, hd, hfalse], ?_⟩
        intro t1 t2 h1 h2 k
        simp only [V102.refresh, V105.refresh, hl, hd, hfalse] at h1 h2
        simp only [Bool.false_eq_true, if_false] at h1 h2
        rw [h1] at h2
        injection h2 with h2
        rw [h2]

/-- Witness for C19 with preference `["fr", "en"]` and fallback `"fr"`: the 1.0.2 build
merges `fr, en, fr`, the 1.0.5 build merges `fr, en`, and both tables answer alike. -/
theorem refresh_builds_agree_witness :
    ∀ k, Obj.get (mergeLocales sampleDict ["fr".toList, "en".toList, "fr".toList]) k
      = Obj.get (mergeLocales sampleDict ["fr".toList, "en".toList]) k :=
  (refresh_builds_agree fallbackInside).2 _ _ rfl rfl

/-! ## Loading one table -/

/-- C15. Loading a single-locale table in the 1.0.5 build. For a non-empty code `c`,
after `load(table, c)` the stored dictionary maps `c` to exactly the given table
(whatever was stored under `c` before), every other locale reads as before, the locale
preference is `c`, and when no fallback is set the rebuilt effective table has exactly
the keys and values of the given table. -/
theorem V105.loadTable_single (st : State) (table : Table) (c : Str) (hc : c ≠ []) :
    ∃ st1, V105.loadTable st table c = some st1
      ∧ (∃ d, st1._dict = some d ∧ Obj.get d c = some table
          ∧ ∀ x, x ≠ c → Obj.get d x = Obj.get (st._dict.getD []) x)
      ∧ st1._locale = some (Locale.single c)
      ∧ (st._fallbackLocale = none →
          ∃ t, st1._current = some t ∧ ∀ k, Obj.get t k = Obj.get table k) := by
  have htr : strTruthy (some c) = true := by
    cases c with
    | nil => exact absurd rfl hc
    | cons x r => rfl
  have hload : V105.loadTable st table c
      = some (V105.refresh { st with
          _dict := some (Obj.set (st._dict.getD []) c table)
          _locale := some (Locale.single c) }) := by
    simp [V105.loadTable, htr]
  refine ⟨_, hload, ?_, ?_, ?_⟩
  · refine ⟨Obj.set (st._dict.getD []) c table, by rw [V105.refresh_dict], ?_, ?_⟩
    · rw [Obj.get_set]
      simp
    · intro x hx
      rw [Obj.get_set]
      simp [hx]
  · rw [V105.refresh_locale]
  · intro hfb
    obtain ⟨t, ht, hk⟩ := V105.refresh_single
      { st with _dict := some (Obj.set (st._dict.getD []) c table)
                _locale := some (Locale.single c) }
      (Obj.set (st._dict.getD []) c table) c rfl rfl hc hfb
    refine ⟨t, ht, ?_⟩
    intro k
    rw [hk k, Obj.get_set]
    simp

/-- Witness for C15: `load({b: "B"}, "fr")` on a state that holds
`{en: {a: "A"}, fr: {a: "F", b: "B"}}` leaves `{b: "B"}` under `fr`. -/
theorem V105.loadTable_single_witness :
    ∃ st1, V105.loadTable sampleState [("b".toList, "B".toList)] "fr".toList = some st1
      ∧ st1._locale = some (Locale.single "fr".toList) := by
  obtain ⟨st1, h1, _, h3, _⟩ :=
    V105.loadTable_single sampleState [("b".toList, "B".toList)] "fr".toList (by decide)
  exact ⟨st1, h1, h3⟩

/-! ## The effective table before configuration -/

theorem V105.refresh_of_dict_none (st : State) (h : st._dict = none) :
    V105.refresh st = st := by
  cases hl : st._locale <;> simp [V105.refresh, hl, h]

theorem V105.refresh_of_locale_falsy (st : State) (h : localeTruthy st._locale = false) :
    V105.refresh st = st := by
  cases hl : st._locale with
  | none => simp [V105.refresh, hl]
  | some locale =>
    rw [hl] at h
    cases hd : st._dict <;> simp [V105.refresh, hl, hd, h]

theorem V105.refresh_keeps_dict_invariant (st : State)
    (h : st._current ≠ none → st._dict ≠ none) :
    (V105.refresh st)._current ≠ none → (V105.refresh st)._dict ≠ none := by
  rw [V105.refresh_dict]
  cases hd : st._dict with
  | none =>
    rw [V105.refresh_of_dict_none st hd]
    intro hc
    exact absurd hd (h hc)
  | some d =>
    intro _
    simp

/-- One call keeps "a set effective table implies a set dictionary". -/
theorem V105.apply_keeps_dict_invariant (st next : State) (op : V105.Op)
    (h : st._current ≠ none → st._dict ≠ none) (hstep : V105.Op.apply st op = some next) :
    next._current ≠ none → next._dict ≠ none := by
  cases op with
  | load dict =>
    simp only [V105.Op.apply, Option.some.injEq] at hstep
    subst hstep
    intro _
    rw [V105.load_dict]
    simp
  | loadTable table lang =>
    simp only [V105.Op.apply, V105.loadTable] at hstep
    split at hstep
    · injection hstep with hstep
      subst hstep
      intro _
      rw [V105.refresh_dict]
      simp
    · simp at hstep
  | setLocale locale =>
    simp only [V105.Op.apply, Option.some.injEq] at hstep
    subst hstep
    exact V105.refresh_keeps_dict_invariant _ h
  | setFallbackLocale locale =>
    simp only [V105.Op.apply, Option.some.injEq] at hstep
    subst hstep
    exact V105.refresh_keeps_dict_invariant _ h
  | autoDetect language useCountryLocale =>
    simp only [V105.Op.apply, Option.some.injEq] at hstep
    subst hstep
    exact V105.refresh_keeps_dict_invariant _ h

/-- A call that is not a load keeps the dictionary and the effective table unset. -/
theorem V105.apply_without_load (st next : State) (op : V105.Op)
    (hd : st._dict = none) (hc : st._current = none) (hop : op.isLoad = false)
    (hstep : V105.Op.apply st op = some next) :
    next._dict = none ∧ next._current = none := by
  cases op with
  | load dict => simp [V105.Op.isLoad] at hop
  | loadTable table lang => simp [V105.Op.isLoad] at hop
  | setLocale locale =>
    have h := V105.refresh_of_dict_none { st with _locale := locale } hd
    simp only [V105.Op.apply, V105.setLocale, Option.some.injEq] at hstep
    rw [h] at hstep
    subst hstep
    exact ⟨hd, hc⟩
  | setFallbackLocale locale =>
    have h := V105.refresh_of_dict_none { st with _fallbackLocale := locale } hd
    simp only [V105.Op.apply, V105.setFallbackLocale, Option.some.injEq] at hstep
    rw [h] at hstep
    subst hstep
    exact ⟨hd, hc⟩
  | autoDetect language useCountryLocale =>
    have h := V105.refresh_of_dict_none
      { st with _locale := some (if useCountryLocale.getD true
          then Locale.many [language, language.take 2]
          else Locale.single (language.take 2)) } hd
    simp only [V105.Op.apply, V105.autoDetect, Option.some.injEq] at hstep
    rw [h] at hstep
    subst hstep
    exact ⟨hd, hc⟩

/-- A call that assigns no truthy preference keeps the preference falsy and the
effective table unset. -/
theorem V105.apply_without_locale (st next : State) (op : V105.Op)
    (hl : localeTruthy st._locale = false) (hc : st._current = none)
    (hop : op.setsTruthyLocale = false) (hstep : V105.Op.apply st op = some next) :
    localeTruthy next._locale = false ∧ next._current = none := by
  cases op with
  | load dict =>
    have h := V105.refresh_of_locale_falsy
      { st with _dict := some (extend (st._dict.getD []) dict) } hl
    simp only [V105.Op.apply, V105.load, Option.some.injEq] at hstep
    rw [h] at hstep
    subst hstep
    exact ⟨hl, hc⟩
  | loadTable table lang =>
    have hlang : strTruthy (some lang) = false := by
      simpa [V105.Op.setsTruthyLocale, V105.Op.assigned, localeTruthy, strTruthy] using hop
    simp [V105.Op.apply, V105.loadTable, hlang] at hstep
  | setLocale locale =>
    have hfalsy : localeTruthy locale = false := by
      simpa [V105.Op.setsTruthyLocale, V105.Op.assigned] using hop
    have h := V105.refresh_of_locale_falsy { st with _locale := locale } hfalsy
    simp only [V105.Op.apply, V105.setLocale, Option.some.injEq] at hstep
    rw [h] at hstep
    subst hstep
    exact ⟨hfalsy, hc⟩
  | setFallbackLocale locale =>
    have h := V105.refresh_of_locale_falsy { st with _fallbackLocale := locale } hl
    simp only [V105.Op.apply, V105.setFallbackLocale, Option.some.injEq] at hstep
    rw [h] at hstep
    subst hstep
    exact ⟨hl, hc⟩
  | autoDetect language useCountryLocale =>
    have hfalsy : localeTruthy (some (if useCountryLocale.getD true
        then Locale.many [language, language.take 2]
        else Locale.single (language.take 2))) = false := by
      simpa [V105.Op.setsTruthyLocale, V105.Op.assigned] using hop
    have h := V105.refresh_of_locale_falsy
      { st with _locale := some (if useCountryLocale.getD true
          then Locale.many [language, language.take 2]
          else Locale.single (language.take 2)) } hfalsy
    simp only [V105.Op.apply, V105.autoDetect, Option.some.injEq] at hstep
    rw [h] at hstep
    subst hstep
    exact ⟨hfalsy, hc⟩

theorem V105.run_keeps_dict_invariant (ops : List V105.Op) :
    ∀ (st final : State), (st._current ≠ none → st._dict ≠ none) →
      V105.run st ops = some final → final._current ≠ none → final._dict ≠ none := by
  induction ops with
  | nil =>
    intro st final h hrun
    simp only [V105.run, Option.some.injEq] at hrun
    subst hrun
    exact h
  | cons op more ih =>
    intro st final h hrun
    simp only [V105.run] at hrun
    cases hstep : V105.Op.apply st op with
    | none => simp [hstep] at hrun
    | some next =>
      rw [hstep] at hrun
      exact ih next final (V105.apply_keeps_dict_invariant st next op h hstep) hrun

theorem V105.run_without_load (ops : List V105.Op) :
    ∀ (st final : State), st._dict = none → st._current = none →
      ops.all (fun op => !op.isLoad) = true →
      V105.run st ops = some final → final._current = none := by
  induction ops with
  | nil =>
    intro st final _ hc _ hrun
    simp only [V105.run, Option.some.injEq] at hrun
    subst hrun
    exact hc
  | cons op more ih =>
    intro st final hd hc hall hrun
    simp only [List.all_cons, Bool.and_eq_true, Bool.not_eq_true'] at hall
    simp only [V105.run] at hrun
    cases hstep : V105.Op.apply st op with
    | none => simp [hstep] at hrun
    | some next =>
      rw [hstep] at hrun
      obtain ⟨hd1, hc1⟩ := V105.apply_without_load st next op hd hc hall.1 hstep
      exact ih next final hd1 hc1 hall.2 hrun

theorem V105.run_without_locale (ops : List V105.Op) :
    ∀ (st final : State), localeTruthy st._locale = false → st._current = none →
      ops.all (fun op => !op.setsTruthyLocale) = true →
      V105.run st ops = some final → final._current = none := by
  induction ops with
  | nil =>
    intro st final _ hc _ hrun
    simp only [V105.run, Option.some.injEq] at hrun
    subst hrun
    exact hc
  | cons op more ih =>
    intro st final hl hc hall hrun
    simp only [List.all_cons, Bool.and_eq_true, Bool.not_eq_true'] at hall
    simp only [V105.run] at hrun
    cases hstep : V105.Op.apply st op with
    | none => simp [hstep] at hrun
    | some next =>
      rw [hstep] at hrun
      obtain ⟨hl1, hc1⟩ := V105.apply_without_locale st next op hl hc hall.1 hstep
      exact ih next final hl1 hc1 hall.2 hrun

/-- C17 (as amended). In every state that the 1.0.5 build reaches from the initial (or
freshly reset) state by in-memory loads, locale assignments, fallback assignments and
`autoDetect` calls: when the sequence contains no in-memory load, or contains no call
that assigns a truthy locale preference (a non-empty string or any array, the empty
array included), the effective table is unset; and a set effective table implies a set
dictionary. -/
theorem V105.current_unset_until_configured (ops : List V105.Op) (st : State)
    (hrun : V105.run State.initial ops = some st) :
    ((ops.all (fun op => !op.isLoad) = true
          ∨ ops.all (fun op => !op.setsTruthyLocale) = true) → st._current = none)
      ∧ (st._current ≠ none → st._dict ≠ none) := by
  refine ⟨?_, ?_⟩
  · intro h
    rcases h with h | h
    · exact V105.run_without_load ops State.initial st rfl rfl h hrun
    · exact V105.run_without_locale ops State.initial st rfl rfl h hrun
  · exact V105.run_keeps_dict_invariant ops State.initial st (fun h => absurd rfl h) hrun

/-- Witness for C17 as amended: a locale and a fallback are assigned but nothing is
loaded, and the effective table is unset. -/
theorem V105.current_unset_until_configured_witness :
    V105.run State.initial
        [V105.Op.setLocale (some (Locale.single "en".toList)),
         V105.Op.setFallbackLocale (some "fr".toList)]
      = some { _dict := none, _current := none,
               _locale := some (Locale.single "en".toList),
               _fallbackLocale := some "fr".toList }
      ∧ ({ _dict := none, _current := none,
           _locale := some (Locale.single "en".toList),
           _fallbackLocale := some "fr".toList } : State)._current = none :=
  ⟨by decide,
   (V105.current_unset_until_configured
      [V105.Op.setLocale (some (Locale.single "en".toList)),
       V105.Op.setFallbackLocale (some "fr".toList)]
      _ (by decide)).1 (Or.inl (by decide))⟩

/-- Counterexample to C17 as stated: after `load({en: {a: "A"}})` and `locale = []` no
call of the sequence has assigned a non-empty preference, yet the empty array is truthy,
the rebuild runs and the effective table is set (to the empty table). -/
theorem V105.empty_preference_counterexample :
    ∃ st, V105.run State.initial
          [V105.Op.load dictFirst, V105.Op.setLocale (some (Locale.many []))] = some st
      ∧ [V105.Op.load dictFirst, V105.Op.setLocale (some (Locale.many []))].all
          (fun op => !op.setsNonEmptyLocale) = true
      ∧ st._current = some [] :=
  ⟨{ _dict := some dictFirst, _current := some [],
     _locale := some (Locale.many []), _fallbackLocale := none },
    by decide, by decide, rfl⟩

end CloudKid
